import Mathlib

/-!
# Verification of the View8 decompiler core

A shallow embedding of the View8 disassembly-to-pseudocode pipeline
(`View8/Parser/sfi_file_parser.py`, `View8/Translate/jump_blocks.py`,
`View8/Simplify/simplify.py`) together with proofs of the specification
claims about it.

Python strings that only serve as payloads are modelled as Lean `String`s;
machine integers parsed from `\d+` regex groups are `Nat`; values that the
source compares against `<= 0` are `Int`.  Mutable dictionaries become
association lists, and Python's stable `list.sort` becomes a stable
insertion sort keyed by a natural number.
-/

namespace View8

/-! ## Generic stable sorting by a natural-number key

`list.sort(key=...)` in CPython is a stable sort.  Any stable sort is
extensionally determined by stability + sortedness + permutation, so a
stable insertion sort is a faithful model. -/

/-- Insert `c` in front of the first element whose key is `≥ key c`
(so equal-key elements already present stay in front only if they come
from earlier input positions: stability). -/
def insertByKey (key : α → Nat) (c : α) : List α → List α
  | [] => [c]
  | d :: ds => if key d < key c then d :: insertByKey key c ds else c :: d :: ds

/-- Stable insertion sort by a `Nat` key; models Python's stable `sort(key=...)`. -/
def sortByKey (key : α → Nat) : List α → List α
  | [] => []
  | c :: cs => insertByKey key c (sortByKey key cs)

theorem insertByKey_perm (key : α → Nat) (c : α) (l : List α) :
    List.Perm (insertByKey key c l) (c :: l) := by
  induction l with
  | nil => simp [insertByKey]
  | cons d ds ih =>
    simp only [insertByKey]
    split
    · exact ((ih.cons d).trans (List.Perm.swap c d ds))
    · exact List.Perm.refl _

theorem sortByKey_perm (key : α → Nat) (l : List α) : List.Perm (sortByKey key l) l := by
  induction l with
  | nil => exact List.Perm.refl _
  | cons c cs ih =>
    exact (insertByKey_perm key c (sortByKey key cs)).trans (ih.cons c)

theorem mem_insertByKey (key : α → Nat) (c x : α) (l : List α) :
    x ∈ insertByKey key c l ↔ x = c ∨ x ∈ l := by
  rw [(insertByKey_perm key c l).mem_iff]; simp

theorem insertByKey_pairwise (key : α → Nat) (c : α) (l : List α)
    (h : l.Pairwise (fun a b => key a ≤ key b)) :
    (insertByKey key c l).Pairwise (fun a b => key a ≤ key b) := by
  induction l with
  | nil => simp [insertByKey]
  | cons d ds ih =>
    rcases List.pairwise_cons.mp h with ⟨hd, hds⟩
    simp only [insertByKey]
    split
    · refine List.pairwise_cons.mpr ⟨?_, ih hds⟩
      intro x hx
      rcases (mem_insertByKey key c x ds).mp hx with rfl | hx
      · omega
      · exact hd x hx
    · refine List.pairwise_cons.mpr ⟨?_, h⟩
      intro x hx
      rcases hx with _ | hx
      · omega
      · have := hd x (by assumption)
        omega

theorem sortByKey_pairwise (key : α → Nat) (l : List α) :
    (sortByKey key l).Pairwise (fun a b => key a ≤ key b) := by
  induction l with
  | nil => simp [sortByKey]
  | cons c cs ih => exact insertByKey_pairwise key c _ ih

/-- Stability, phrased through `filter`: the subsequence of elements with any
given key is untouched by insertion. -/
theorem insertByKey_filter (key : α → Nat) (c : α) (l : List α) (k : Nat) :
    (insertByKey key c l).filter (fun x => key x = k)
      = if key c = k then c :: l.filter (fun x => key x = k)
        else l.filter (fun x => key x = k) := by
  induction l with
  | nil =>
    simp only [insertByKey, List.filter_cons, List.filter_nil]
    by_cases hc : key c = k <;> simp [hc]
  | cons d ds ih =>
    simp only [insertByKey]
    by_cases hdc : key d < key c
    · rw [if_pos hdc]
      by_cases hc : key c = k
      · have hd : ¬ key d = k := by omega
        simp [List.filter_cons, hd, hc, ih]
      · by_cases hd : key d = k
        · simp [List.filter_cons, hd, hc, ih]
        · simp [List.filter_cons, hd, hc, ih]
    · rw [if_neg hdc]
      by_cases hc : key c = k
      · simp [List.filter_cons, hc]
      · simp [List.filter_cons, hc]

/-- A stable sort never reorders the elements sharing one key. -/
theorem sortByKey_filter (key : α → Nat) (l : List α) (k : Nat) :
    (sortByKey key l).filter (fun x => key x = k) = l.filter (fun x => key x = k) := by
  induction l with
  | nil => simp [sortByKey]
  | cons c cs ih =>
    simp only [sortByKey]
    rw [insertByKey_filter, List.filter_cons, ih]
    by_cases hc : key c = k <;> simp [hc]

theorem find?_eq_head?_filter (p : α → Bool) (l : List α) :
    l.find? p = (l.filter p).head? := by
  induction l with
  | nil => simp
  | cons c cs ih =>
    by_cases hc : p c
    · simp [List.find?_cons, List.filter_cons, hc]
    · simp only [List.find?_cons, List.filter_cons, hc]
      simp only [Bool.false_eq_true, if_false, cond_false]
      exact ih

/-! ## Constant pool parsing (`parse_const_pool`, sfi_file_parser.py:359-436)

The body of the `while True` loop classifies each (stripped) line via the
regexes `rx_range`/`rx_single` and the literal sub-block / boundary
prefixes.  `PoolLine` is that classification; the value a single entry
resolves to (`_parse_const_value_from_single`, which may consume nested
lines but never touches the pool state) is carried in the constructor. -/

/-- One classified line of a constant-pool body. -/
inductive PoolLine where
  /-- `Start SharedFunctionInfo` / `Start ObjectBoilerplateDescription` /
  `Start ArrayBoilerplateDescription` / `Start FixedArray`: consumed aside,
  no effect on the pool. -/
  | subBlock
  /-- `Start BytecodeArray` / `Handler Table` / `Source Position Table` /
  `End SharedFunctionInfo`: parent-block boundary, stops the loop. -/
  | boundary
  /-- `i-j: value` matched by `rx_range`. -/
  | range (si ei : Nat) (v : String)
  /-- `idx: value` matched by `rx_single`; `v` is the classified value. -/
  | single (idx : Nat) (v : String)
  /-- any other line: ignored. -/
  | other
deriving DecidableEq, Repr

/-- Does a pool line textually address slot `i`? -/
def PoolLine.addresses : PoolLine → Nat → Prop
  | .range si ei _, i => si ≤ i ∧ i ≤ ei
  | .single idx _, i => idx = i
  | _, _ => False

instance (ln : PoolLine) (i : Nat) : Decidable (ln.addresses i) := by
  cases ln <;> simp [PoolLine.addresses] <;> infer_instance

/-- The mutable loop state of `parse_const_pool`: `const_list`, `assigned`,
and whether one of the `break`s has fired. -/
structure PoolState where
  pool : List (Option String)
  assigned : Nat
  stopped : Bool
deriving DecidableEq, Repr

/-- `if 0 <= idx < size and const_list[idx] is None: const_list[idx] = v; assigned += 1`
(the body shared by the ranged and the single entry). -/
def rangeAssign (size : Int) (v : String) (st : PoolState) (idx : Nat) : PoolState :=
  if (idx : Int) < size ∧ st.pool.getD idx (some "") = none then
    { st with pool := st.pool.set idx (some v), assigned := st.assigned + 1 }
  else st

/-- One iteration of the `while True` loop of `parse_const_pool` on an
already-read line. -/
def poolStep (size : Int) (st : PoolState) (ln : PoolLine) : PoolState :=
  if st.stopped then st
  else if size ≤ (st.assigned : Int) then { st with stopped := true }
  else
    match ln with
    | .subBlock => st
    | .boundary => { st with stopped := true }
    | .range si ei v => (List.range' si (ei + 1 - si)).foldl (rangeAssign size v) st
    | .single idx v => rangeAssign size v st idx
    | .other => st

/-- Initial state: `const_list = [None] * size; assigned = 0`. -/
def initPool (size : Int) : PoolState := ⟨List.replicate size.toNat none, 0, false⟩

/-- `parse_const_pool` (sfi_file_parser.py:359-436): `[]` when the declared
size is `<= 0`; otherwise run the entry loop and replace every unfilled
slot by the empty string. -/
def parse_const_pool (size : Int) (body : List PoolLine) : List String :=
  if size ≤ 0 then []
  else ((body.foldl (poolStep size) (initPool size)).pool).map (fun s => s.getD "")

theorem rangeAssign_pool_length (size : Int) (v : String) (st : PoolState) (idx : Nat) :
    ((rangeAssign size v st idx).pool).length = st.pool.length := by
  unfold rangeAssign
  split <;> simp

theorem foldl_rangeAssign_pool_length (size : Int) (v : String) (l : List Nat)
    (st : PoolState) :
    ((l.foldl (rangeAssign size v) st).pool).length = st.pool.length := by
  induction l generalizing st with
  | nil => rfl
  | cons i is ih => rw [List.foldl_cons, ih, rangeAssign_pool_length]

theorem poolStep_pool_length (size : Int) (st : PoolState) (ln : PoolLine) :
    ((poolStep size st ln).pool).length = st.pool.length := by
  unfold poolStep
  split
  · rfl
  split
  · rfl
  cases ln <;> simp [foldl_rangeAssign_pool_length, rangeAssign_pool_length]

theorem foldl_poolStep_pool_length (size : Int) (body : List PoolLine) (st : PoolState) :
    ((body.foldl (poolStep size) st).pool).length = st.pool.length := by
  induction body generalizing st with
  | nil => rfl
  | cons ln lns ih => rw [List.foldl_cons, ih, poolStep_pool_length]

theorem rangeAssign_preserves_unaddressed (size : Int) (v : String) (st : PoolState)
    (idx i : Nat) (hne : idx ≠ i) :
    ((rangeAssign size v st idx).pool).getD i none = st.pool.getD i none := by
  unfold rangeAssign
  split
  · simp [List.getD, List.get?_eq_getElem?, List.getElem?_set_ne hne]
  · rfl

theorem foldl_rangeAssign_preserves_unaddressed (size : Int) (v : String) (l : List Nat)
    (st : PoolState) (i : Nat) (hni : i ∉ l) :
    ((l.foldl (rangeAssign size v) st).pool).getD i none = st.pool.getD i none := by
  induction l generalizing st with
  | nil => rfl
  | cons j js ih =>
    simp only [List.mem_cons, not_or] at hni
    rw [List.foldl_cons, ih _ hni.2,
      rangeAssign_preserves_unaddressed size v st j i (fun h => hni.1 h.symm)]

theorem poolStep_preserves_unaddressed (size : Int) (st : PoolState) (ln : PoolLine)
    (i : Nat) (h : ¬ ln.addresses i) :
    ((poolStep size st ln).pool).getD i none = st.pool.getD i none := by
  unfold poolStep
  split
  · rfl
  split
  · rfl
  cases ln with
  | subBlock => rfl
  | boundary => rfl
  | other => rfl
  | range si ei v =>
    refine foldl_rangeAssign_preserves_unaddressed size v _ st i ?_
    simp only [PoolLine.addresses, not_and, not_le] at h
    intro hmem
    rw [List.mem_range'_1] at hmem
    omega
  | single idx v =>
    refine rangeAssign_preserves_unaddressed size v st idx i ?_
    simp only [PoolLine.addresses] at h
    exact h

theorem foldl_poolStep_preserves_unaddressed (size : Int) (body : List PoolLine)
    (st : PoolState) (i : Nat) (h : ∀ ln ∈ body, ¬ ln.addresses i) :
    ((body.foldl (poolStep size) st).pool).getD i none = st.pool.getD i none := by
  induction body generalizing st with
  | nil => rfl
  | cons ln lns ih =>
    rw [List.foldl_cons, ih _ (fun x hx => h x (List.mem_cons_of_mem ln hx)),
      poolStep_preserves_unaddressed size st ln i (h ln (List.mem_cons_self ln lns))]

theorem getD_eq_getElem?_getD (l : List α) (i : Nat) (d : α) :
    l.getD i d = (l[i]?).getD d := by
  simp [List.getD, List.get?_eq_getElem?]

theorem getD_map_getD (pool : List (Option String)) (i : Nat) (h : i < pool.length) :
    (pool.map (fun s => s.getD "")).getD i "" = (pool.getD i none).getD "" := by
  rw [getD_eq_getElem?_getD, getD_eq_getElem?_getD, List.getElem?_map,
    List.getElem?_eq_getElem h]
  rfl

theorem getD_replicate_none (n i : Nat) :
    (List.replicate n (none : Option String)).getD i none = none := by
  rw [getD_eq_getElem?_getD]
  by_cases h : i < n
  · rw [List.getElem?_eq_getElem (by simpa using h)]
    simp [List.getElem_replicate]
  · rw [List.getElem?_eq_none (by simpa using Nat.le_of_not_lt h)]
    rfl

/-- C1: for every constant pool declared with size `N ≥ 0`, `parse_const_pool`
returns a list of length exactly `N`; every index never addressed by a single
or ranged entry holds the empty string; a declared size of `0` (or a negative
size) yields the empty list. -/
theorem const_pool_size_exact (size : Int) (body : List PoolLine) :
    (parse_const_pool size body).length = size.toNat
    ∧ (size ≤ 0 → parse_const_pool size body = [])
    ∧ (∀ i, i < size.toNat → (∀ ln ∈ body, ¬ ln.addresses i) →
        (parse_const_pool size body).getD i "" = "") := by
  refine ⟨?_, ?_, ?_⟩
  · unfold parse_const_pool
    split
    · rename_i h
      simp [Int.toNat_of_nonpos h]
    · simp [foldl_poolStep_pool_length, initPool]
  · intro h
    simp [parse_const_pool, h]
  · intro i hi hun
    unfold parse_const_pool
    split
    · rename_i h
      rw [Int.toNat_of_nonpos h] at hi
      omega
    · have hlen : ((body.foldl (poolStep size) (initPool size)).pool).length = size.toNat := by
        simp [foldl_poolStep_pool_length, initPool]
      rw [getD_map_getD _ i (by omega),
        foldl_poolStep_preserves_unaddressed size body (initPool size) i hun]
      simp [initPool, getD_replicate_none]

theorem const_pool_size_exact_witness :
    (parse_const_pool 3 [PoolLine.single 0 "a", PoolLine.range 2 2 "b"]).getD 1 "" = ""
    ∧ (parse_const_pool 3 [PoolLine.single 0 "a", PoolLine.range 2 2 "b"]).length = 3 := by
  have h := const_pool_size_exact 3 [PoolLine.single 0 "a", PoolLine.range 2 2 "b"]
  exact ⟨h.2.2 1 (by decide) (by decide), h.1⟩

theorem rangeAssign_preserves_assigned (size : Int) (v : String) (st : PoolState)
    (idx j : Nat) (w : String) (h : st.pool.getD j (some "") = some w) :
    ((rangeAssign size v st idx).pool).getD j (some "") = some w := by
  unfold rangeAssign
  split
  · rename_i hcond
    by_cases hji : j = idx
    · subst hji
      rw [hcond.2] at h
      cases h
    · simpa [getD_eq_getElem?_getD, List.getElem?_set_ne (Ne.symm hji)] using h
  · exact h

theorem foldl_rangeAssign_preserves_assigned (size : Int) (v : String) (l : List Nat)
    (st : PoolState) (j : Nat) (w : String) (h : st.pool.getD j (some "") = some w) :
    ((l.foldl (rangeAssign size v) st).pool).getD j (some "") = some w := by
  induction l generalizing st with
  | nil => exact h
  | cons idx is ih =>
    rw [List.foldl_cons]
    exact ih _ (rangeAssign_preserves_assigned size v st idx j w h)

theorem poolStep_preserves_assigned (size : Int) (st : PoolState) (ln : PoolLine)
    (j : Nat) (w : String) (h : st.pool.getD j (some "") = some w) :
    ((poolStep size st ln).pool).getD j (some "") = some w := by
  unfold poolStep
  split
  · exact h
  split
  · exact h
  cases ln with
  | subBlock => exact h
  | boundary => exact h
  | other => exact h
  | range si ei v => exact foldl_rangeAssign_preserves_assigned size v _ st j w h
  | single idx v => exact rangeAssign_preserves_assigned size v st idx j w h

theorem foldl_poolStep_preserves_assigned (size : Int) (body : List PoolLine)
    (st : PoolState) (j : Nat) (w : String) (h : st.pool.getD j (some "") = some w) :
    ((body.foldl (poolStep size) st).pool).getD j (some "") = some w := by
  induction body generalizing st with
  | nil => exact h
  | cons ln lns ih =>
    rw [List.foldl_cons]
    exact ih _ (poolStep_preserves_assigned size st ln j w h)

/-- C10: within one constant pool parse, a slot that has already been assigned
is never overwritten by a later single or ranged entry (first assignment wins),
and an out-of-range index is silently ignored. -/
theorem const_pool_no_overwrite (size : Int) (body extra : List PoolLine)
    (i : Nat) (v : String)
    (hv : ((body.foldl (poolStep size) (initPool size)).pool).getD i (some "") = some v) :
    (parse_const_pool size (body ++ extra)).getD i "" = v
    ∧ (∀ (st : PoolState) (idx : Nat) (w : String), ¬ ((idx : Int) < size) →
        rangeAssign size w st idx = st)
    ∧ (∀ (st : PoolState) (ln : PoolLine) (j : Nat) (w : String),
        st.pool.getD j (some "") = some w →
        ((poolStep size st ln).pool).getD j (some "") = some w) := by
  refine ⟨?_, ?_, poolStep_preserves_assigned size⟩
  · have hfinal : (((body ++ extra).foldl (poolStep size) (initPool size)).pool).getD i
        (some "") = some v := by
      rw [List.foldl_append]
      exact foldl_poolStep_preserves_assigned size extra _ i v hv
    have hlen0 : ((body.foldl (poolStep size) (initPool size)).pool).length = size.toNat := by
      simp [foldl_poolStep_pool_length, initPool]
    have hlen : (((body ++ extra).foldl (poolStep size) (initPool size)).pool).length
        = size.toNat := by
      simp [foldl_poolStep_pool_length, initPool]
    by_cases hi : i < size.toNat
    · have hpos : ¬ size ≤ 0 := by omega
      unfold parse_const_pool
      rw [if_neg hpos, getD_map_getD _ i (by omega)]
      rw [getD_eq_getElem?_getD, List.getElem?_eq_getElem (by omega)] at hfinal ⊢
      simp only [Option.getD_some] at hfinal
      rw [hfinal]
      rfl
    · rw [getD_eq_getElem?_getD, List.getElem?_eq_none (by omega)] at hv
      cases hv
      unfold parse_const_pool
      split
      · rfl
      · rw [getD_eq_getElem?_getD,
          List.getElem?_eq_none (by simp [foldl_poolStep_pool_length, initPool]; omega)]
        rfl
  · intro st idx w h
    unfold rangeAssign
    rw [if_neg (fun hc => h hc.1)]

theorem const_pool_no_overwrite_witness :
    (parse_const_pool 2 ([PoolLine.single 0 "first"]
        ++ [PoolLine.single 0 "second", PoolLine.range 0 1 "third"])).getD 0 "" = "first" := by
  have h := const_pool_no_overwrite 2 [PoolLine.single 0 "first"]
    [PoolLine.single 0 "second", PoolLine.range 0 1 "third"] 0 "first" (by decide)
  exact h.1

/-! ## Bytecode list normalisation
(`parse_bytecode`, sfi_file_parser.py:228-250, and the placeholder gap fill
in `parse_shared_function_info`, sfi_file_parser.py:557-565) -/

/-- A parsed bytecode line (the `CodeLine` fields used by the parser). -/
structure PCodeLine where
  opcode : String
  line_num : Nat
  inst : String
deriving DecidableEq, Repr

/-- The dedup loop at the end of `parse_bytecode`: `seen` is the set of
offsets already emitted; the first occurrence of each offset is kept. -/
def dedupByOffset : List Nat → List PCodeLine → List PCodeLine
  | _, [] => []
  | seen, c :: cs =>
    if c.line_num ∈ seen then dedupByOffset seen cs
    else c :: dedupByOffset (c.line_num :: seen) cs

/-- `parse_bytecode` (sfi_file_parser.py:228-250) applied to the list of
successfully parsed lines: stable sort by offset, then dedup keeping the
first occurrence per offset. -/
def parse_bytecode (input : List PCodeLine) : List PCodeLine :=
  dedupByOffset [] (sortByKey (fun c => c.line_num) input)

/-- `CodeLine(opcode="", line=off, inst="// placeholder")`
(sfi_file_parser.py:564). -/
def placeholderLine (off : Nat) : PCodeLine := ⟨"", off, "// placeholder"⟩

/-- `min(offs)` over the offsets of a non-empty code list (`0` for `[]`). -/
def minOffset : List PCodeLine → Nat
  | [] => 0
  | c :: cs => (cs.map (fun d => d.line_num)).foldl Nat.min c.line_num

/-- `max(offs)` over the offsets of a non-empty code list (`0` for `[]`). -/
def maxOffset : List PCodeLine → Nat
  | [] => 0
  | c :: cs => (cs.map (fun d => d.line_num)).foldl Nat.max c.line_num

/-- The placeholders appended by sfi_file_parser.py:562-564: one per offset
in `range(min(offs), max(offs)+1)` that is not an existing offset. -/
def missingOf (code : List PCodeLine) : List PCodeLine :=
  ((List.range' (minOffset code) (maxOffset code + 1 - minOffset code)).filter
      (fun k => ¬ k ∈ code.map (fun d => d.line_num))).map placeholderLine

/-- The gap fill of sfi_file_parser.py:558-565: on a non-empty code list,
append a placeholder for every missing offset between min and max, then
re-sort (stably) by offset. -/
def fillGaps (code : List PCodeLine) : List PCodeLine :=
  match code with
  | [] => []
  | c :: cs => sortByKey (fun d => d.line_num) ((c :: cs) ++ missingOf (c :: cs))

/-- Boolean offset-equality predicate used in `find?` statements. -/
def offEq (k : Nat) : PCodeLine → Bool := fun d => decide (d.line_num = k)

theorem dedupByOffset_sublist (seen : List Nat) (l : List PCodeLine) :
    List.Sublist (dedupByOffset seen l) l := by
  induction l generalizing seen with
  | nil => simp [dedupByOffset]
  | cons d ds ih =>
    simp only [dedupByOffset]
    split
    · exact (ih seen).cons d
    · exact (ih (d.line_num :: seen)).cons₂ d

theorem dedupByOffset_find? (seen : List Nat) (l : List PCodeLine) (c : PCodeLine)
    (hc : c ∈ dedupByOffset seen l) :
    c.line_num ∉ seen ∧ l.find? (offEq c.line_num) = some c := by
  induction l generalizing seen with
  | nil => cases hc
  | cons d ds ih =>
    simp only [dedupByOffset] at hc
    split at hc
    · rename_i hin
      obtain ⟨hnot, hfind⟩ := ih seen hc
      have hne : ¬ offEq c.line_num d = true := by
        simp only [offEq, decide_eq_true_eq]
        intro h
        exact hnot (h ▸ hin)
      refine ⟨hnot, ?_⟩
      rw [List.find?_cons_of_neg _ hne]
      exact hfind
    · rename_i hin
      rw [List.mem_cons] at hc
      rcases hc with rfl | hc
      · exact ⟨hin, by rw [List.find?_cons_of_pos _ (by simp [offEq])]⟩
      · obtain ⟨hnot, hfind⟩ := ih (d.line_num :: seen) hc
        simp only [List.mem_cons, not_or] at hnot
        have hne : ¬ offEq c.line_num d = true := by
          simp only [offEq, decide_eq_true_eq]
          intro h
          exact hnot.1 (h ▸ rfl)
        exact ⟨hnot.2, by rw [List.find?_cons_of_neg _ hne]; exact hfind⟩

theorem dedupByOffset_pairwise_ne (seen : List Nat) (l : List PCodeLine) :
    (dedupByOffset seen l).Pairwise (fun a b => a.line_num ≠ b.line_num) := by
  induction l generalizing seen with
  | nil => simp [dedupByOffset]
  | cons d ds ih =>
    simp only [dedupByOffset]
    split
    · exact ih seen
    · refine List.pairwise_cons.mpr ⟨?_, ih (d.line_num :: seen)⟩
      intro x hx
      have := (dedupByOffset_find? (d.line_num :: seen) ds x hx).1
      simp only [List.mem_cons, not_or] at this
      exact fun h => this.1 h.symm

theorem dedupByOffset_mem_key (seen : List Nat) (l : List PCodeLine) (o : Nat)
    (ho : o ∈ l.map (fun c => c.line_num)) (hs : o ∉ seen) :
    o ∈ (dedupByOffset seen l).map (fun c => c.line_num) := by
  induction l generalizing seen with
  | nil => cases ho
  | cons d ds ih =>
    simp only [List.map_cons, List.mem_cons] at ho
    simp only [dedupByOffset]
    split
    · rename_i hin
      rcases ho with rfl | ho
      · exact absurd hin hs
      · exact ih seen ho hs
    · rcases ho with rfl | ho
      · simp
      · by_cases hod : o = d.line_num
        · simp [hod]
        · simp only [List.map_cons, List.mem_cons]
          exact Or.inr (ih (d.line_num :: seen) ho (by simp [hod, hs]))

theorem parse_bytecode_pairwise_lt (input : List PCodeLine) :
    (parse_bytecode input).Pairwise (fun a b => a.line_num < b.line_num) := by
  have hle : (parse_bytecode input).Pairwise (fun a b => a.line_num ≤ b.line_num) :=
    (sortByKey_pairwise (fun c => c.line_num) input).sublist
      (dedupByOffset_sublist [] _)
  have hne := dedupByOffset_pairwise_ne [] (sortByKey (fun c => c.line_num) input)
  exact (hle.and hne).imp (fun h => by omega)

theorem parse_bytecode_find? (input : List PCodeLine) (c : PCodeLine)
    (hc : c ∈ parse_bytecode input) :
    input.find? (offEq c.line_num) = some c := by
  have hfind := (dedupByOffset_find? [] _ c hc).2
  have hfilter : (sortByKey (fun c => c.line_num) input).filter (offEq c.line_num)
      = input.filter (offEq c.line_num) := by
    have := sortByKey_filter (fun c => c.line_num) input c.line_num
    simpa [offEq] using this
  rw [find?_eq_head?_filter] at hfind ⊢
  rw [← hfilter]
  exact hfind

theorem parse_bytecode_mem_key (input : List PCodeLine) (o : Nat)
    (ho : o ∈ input.map (fun c => c.line_num)) :
    o ∈ (parse_bytecode input).map (fun c => c.line_num) := by
  refine dedupByOffset_mem_key [] _ o ?_ (by simp)
  have hperm := (sortByKey_perm (fun c => c.line_num) input).map (fun c => c.line_num)
  exact hperm.mem_iff.mpr ho

theorem foldl_min_le_init (l : List Nat) (a : Nat) : l.foldl Nat.min a ≤ a := by
  induction l generalizing a with
  | nil => exact Nat.le_refl a
  | cons x xs ih => exact Nat.le_trans (ih (Nat.min a x)) (Nat.min_le_left a x)

theorem foldl_min_le_mem (l : List Nat) (a x : Nat) (hx : x ∈ l) :
    l.foldl Nat.min a ≤ x := by
  induction l generalizing a with
  | nil => cases hx
  | cons y ys ih =>
    rw [List.mem_cons] at hx
    rcases hx with rfl | hx
    · exact Nat.le_trans (foldl_min_le_init ys (Nat.min a x)) (Nat.min_le_right a x)
    · exact ih _ hx

theorem foldl_min_mem (l : List Nat) (a : Nat) :
    l.foldl Nat.min a = a ∨ l.foldl Nat.min a ∈ l := by
  induction l generalizing a with
  | nil => exact Or.inl rfl
  | cons x xs ih =>
    rcases ih (Nat.min a x) with h | h
    · rw [List.foldl_cons, h]
      have hm : Nat.min a x = a ∨ Nat.min a x = x := by
        by_cases hax : a ≤ x
        · exact Or.inl (Nat.min_eq_left hax)
        · exact Or.inr (Nat.min_eq_right (Nat.le_of_not_le hax))
      rcases hm with hm | hm
      · exact Or.inl hm
      · exact Or.inr (by rw [hm]; exact List.mem_cons_self x xs)
    · exact Or.inr (List.mem_cons_of_mem x h)

theorem le_foldl_max_init (l : List Nat) (a : Nat) : a ≤ l.foldl Nat.max a := by
  induction l generalizing a with
  | nil => exact Nat.le_refl a
  | cons x xs ih => exact Nat.le_trans (Nat.le_max_left a x) (ih (Nat.max a x))

theorem le_foldl_max_mem (l : List Nat) (a x : Nat) (hx : x ∈ l) :
    x ≤ l.foldl Nat.max a := by
  induction l generalizing a with
  | nil => cases hx
  | cons y ys ih =>
    rw [List.mem_cons] at hx
    rcases hx with rfl | hx
    · exact Nat.le_trans (Nat.le_max_right a x) (le_foldl_max_init ys (Nat.max a x))
    · exact ih _ hx

theorem foldl_max_mem (l : List Nat) (a : Nat) :
    l.foldl Nat.max a = a ∨ l.foldl Nat.max a ∈ l := by
  induction l generalizing a with
  | nil => exact Or.inl rfl
  | cons x xs ih =>
    rcases ih (Nat.max a x) with h | h
    · rw [List.foldl_cons, h]
      have hm : Nat.max a x = a ∨ Nat.max a x = x := by
        by_cases hax : a ≤ x
        · exact Or.inr (Nat.max_eq_right hax)
        · exact Or.inl (Nat.max_eq_left (Nat.le_of_not_le hax))
      rcases hm with hm | hm
      · exact Or.inl hm
      · exact Or.inr (by rw [hm]; exact List.mem_cons_self x xs)
    · exact Or.inr (List.mem_cons_of_mem x h)

theorem minOffset_mem (code : List PCodeLine) (h : code ≠ []) :
    minOffset code ∈ code.map (fun c => c.line_num) := by
  cases code with
  | nil => exact absurd rfl h
  | cons c cs =>
    rcases foldl_min_mem (cs.map (fun d => d.line_num)) c.line_num with heq | hmem
    · simp [minOffset, heq]
    · simp only [minOffset, List.map_cons, List.mem_cons]
      exact Or.inr hmem

theorem minOffset_le (code : List PCodeLine) (k : Nat)
    (hk : k ∈ code.map (fun c => c.line_num)) : minOffset code ≤ k := by
  cases code with
  | nil => cases hk
  | cons c cs =>
    simp only [List.map_cons, List.mem_cons] at hk
    rcases hk with rfl | hk
    · exact foldl_min_le_init _ _
    · exact foldl_min_le_mem _ _ _ hk

theorem maxOffset_mem (code : List PCodeLine) (h : code ≠ []) :
    maxOffset code ∈ code.map (fun c => c.line_num) := by
  cases code with
  | nil => exact absurd rfl h
  | cons c cs =>
    rcases foldl_max_mem (cs.map (fun d => d.line_num)) c.line_num with heq | hmem
    · simp [maxOffset, heq]
    · simp only [maxOffset, List.map_cons, List.mem_cons]
      exact Or.inr hmem

theorem le_maxOffset (code : List PCodeLine) (k : Nat)
    (hk : k ∈ code.map (fun c => c.line_num)) : k ≤ maxOffset code := by
  cases code with
  | nil => cases hk
  | cons c cs =>
    simp only [List.map_cons, List.mem_cons] at hk
    rcases hk with rfl | hk
    · exact le_foldl_max_init _ _
    · exact le_foldl_max_mem _ _ _ hk

theorem fillGaps_eq_of_ne_nil (code : List PCodeLine) (hne : code ≠ []) :
    fillGaps code = sortByKey (fun d => d.line_num) (code ++ missingOf code) := by
  cases code with
  | nil => exact absurd rfl hne
  | cons c cs => rfl

theorem missingOf_keys (code : List PCodeLine) :
    (missingOf code).map (fun c => c.line_num)
      = (List.range' (minOffset code) (maxOffset code + 1 - minOffset code)).filter
          (fun k => !(decide (k ∈ code.map (fun d => d.line_num)))) := by
  unfold missingOf
  rw [List.map_map]
  have h1 : ((fun c : PCodeLine => c.line_num) ∘ placeholderLine) = id := funext fun k => rfl
  rw [h1, List.map_id]
  congr 1
  funext k
  rw [decide_not]

theorem fillGaps_keys (code : List PCodeLine)
    (hcode : code.Pairwise (fun a b => a.line_num < b.line_num)) (hne : code ≠ []) :
    (fillGaps code).map (fun c => c.line_num)
      = List.range' (minOffset code) (maxOffset code + 1 - minOffset code) := by
  have hnodupK : (code.map (fun c => c.line_num)).Nodup :=
    List.pairwise_map.mpr (hcode.imp (fun h => by omega))
  have hloK := minOffset_mem code hne
  have hsubR : ∀ k ∈ code.map (fun c => c.line_num),
      k ∈ List.range' (minOffset code) (maxOffset code + 1 - minOffset code) := by
    intro k hk
    rw [List.mem_range'_1]
    have h1 := minOffset_le code k hk
    have h2 := le_maxOffset code k hk
    have h3 := le_maxOffset code _ hloK
    omega
  have h1 : List.Perm (fillGaps code) (code ++ missingOf code) := by
    rw [fillGaps_eq_of_ne_nil code hne]
    exact sortByKey_perm _ _
  have h2 : List.Perm ((fillGaps code).map (fun c => c.line_num))
      (code.map (fun c => c.line_num) ++ (missingOf code).map (fun c => c.line_num)) := by
    have := h1.map (fun c => c.line_num)
    rwa [List.map_append] at this
  have h3 : List.Perm
      ((List.range' (minOffset code) (maxOffset code + 1 - minOffset code)).filter
        (fun k => decide (k ∈ code.map (fun d => d.line_num))))
      (code.map (fun c => c.line_num)) := by
    rw [List.perm_ext_iff_of_nodup ((List.nodup_range' _ _).filter _) hnodupK]
    intro a
    simp only [List.mem_filter, decide_eq_true_eq]
    exact ⟨fun h => h.2, fun h => ⟨hsubR a h, h⟩⟩
  have h4 : List.Perm
      (code.map (fun c => c.line_num) ++ (missingOf code).map (fun c => c.line_num))
      (List.range' (minOffset code) (maxOffset code + 1 - minOffset code)) := by
    rw [missingOf_keys]
    exact ((h3.symm).append_right _).trans (List.filter_append_perm _ _)
  have h5 := h2.trans h4
  have hsorted : ((fillGaps code).map (fun c => c.line_num)).Pairwise (· ≤ ·) := by
    refine List.pairwise_map.mpr ?_
    rw [fillGaps_eq_of_ne_nil code hne]
    exact sortByKey_pairwise _ _
  have hnodupF : ((fillGaps code).map (fun c => c.line_num)).Nodup :=
    (h5.symm).nodup (List.nodup_range' _ _)
  have hltF : ((fillGaps code).map (fun c => c.line_num)).Pairwise (· < ·) :=
    (hsorted.and hnodupF).imp (fun h => Nat.lt_of_le_of_ne h.1 h.2)
  haveI : IsAntisymm Nat (· < ·) := ⟨fun a b h1 h2 => absurd h2 (Nat.lt_asymm h1)⟩
  exact List.eq_of_perm_of_sorted h5 hltF (List.pairwise_lt_range' _ _)

/-- C2: after parsing, a function's bytecode list is sorted strictly by
offset; each element is either the first input instruction with its offset
or an inert placeholder at an offset no input instruction had; and, when
non-empty, the offsets form exactly the contiguous range from the minimum
offset to the maximum offset. -/
theorem bytecode_sorted_dedup_contiguous (input : List PCodeLine) :
    (fillGaps (parse_bytecode input)).Pairwise (fun a b => a.line_num < b.line_num)
    ∧ (∀ c ∈ fillGaps (parse_bytecode input),
        input.find? (offEq c.line_num) = some c
        ∨ (c = placeholderLine c.line_num ∧ ∀ d ∈ input, d.line_num ≠ c.line_num))
    ∧ (parse_bytecode input ≠ [] →
        (fillGaps (parse_bytecode input)).map (fun c => c.line_num)
          = List.range' (minOffset (parse_bytecode input))
              (maxOffset (parse_bytecode input) + 1 - minOffset (parse_bytecode input))) := by
  have hlt := parse_bytecode_pairwise_lt input
  by_cases hne : parse_bytecode input = []
  · rw [hne]
    exact ⟨List.Pairwise.nil, fun c hc => absurd hc (List.not_mem_nil c),
      fun h => absurd rfl h⟩
  · have hkeys := fillGaps_keys _ hlt hne
    refine ⟨?_, ?_, fun _ => hkeys⟩
    · have := hkeys ▸ List.pairwise_lt_range' (minOffset (parse_bytecode input))
        (maxOffset (parse_bytecode input) + 1 - minOffset (parse_bytecode input))
      exact List.pairwise_map.mp this
    · intro c hc
      have hmem : c ∈ parse_bytecode input ++ missingOf (parse_bytecode input) := by
        rw [fillGaps_eq_of_ne_nil _ hne] at hc
        exact (sortByKey_perm _ _).mem_iff.mp hc
      rcases List.mem_append.mp hmem with hcode | hmiss
      · exact Or.inl (parse_bytecode_find? input c hcode)
      · unfold missingOf at hmiss
        rcases List.mem_map.mp hmiss with ⟨k, hk, hck⟩
        rcases List.mem_filter.mp hk with ⟨_, hknot⟩
        subst hck
        refine Or.inr ⟨rfl, ?_⟩
        intro d hd hdk
        have hdl : d.line_num = k := hdk
        have hin : k ∈ (parse_bytecode input).map (fun c => c.line_num) := by
          refine parse_bytecode_mem_key input k ?_
          rw [← hdl]
          exact List.mem_map_of_mem (fun c => c.line_num) hd
        have hnotin : ¬ k ∈ (parse_bytecode input).map (fun d => d.line_num) :=
          of_decide_eq_true hknot
        exact hnotin hin

theorem bytecode_sorted_dedup_contiguous_witness :
    (fillGaps (parse_bytecode
        [⟨"x", 2, "b"⟩, ⟨"y", 0, "a"⟩, ⟨"z", 2, "c"⟩])).map (fun c => c.line_num)
      = [0, 1, 2]
    ∧ (fillGaps (parse_bytecode [⟨"x", 2, "b"⟩, ⟨"y", 0, "a"⟩, ⟨"z", 2, "c"⟩])).find?
        (offEq 2) = some ⟨"x", 2, "b"⟩ := by
  have h := (bytecode_sorted_dedup_contiguous
    [⟨"x", 2, "b"⟩, ⟨"y", 0, "a"⟩, ⟨"z", 2, "c"⟩]).2.2 (by decide)
  exact ⟨h.trans (by decide), by decide⟩

/-! ## Scope-id assignment (`_init_scopeinfo_graph` / `_ctx_for_scopeinfo`,
simplify.py:26-96)

Addresses are the `0x...` strings captured by the parser's scope-info
regexes; `_hex_to_int` is `int(addr, 16)` with `0` on failure. -/

/-- Value of one hexadecimal digit, or `none`. -/
def hexDigitVal (c : Char) : Option Nat :=
  if '0' ≤ c ∧ c ≤ '9' then some (c.toNat - 48)
  else if 'a' ≤ c ∧ c ≤ 'f' then some (c.toNat - 87)
  else if 'A' ≤ c ∧ c ≤ 'F' then some (c.toNat - 55)
  else none

/-- Hex digit fold; `none` as soon as one character is not a hex digit. -/
def parseHex (cs : List Char) : Option Nat :=
  cs.foldl
    (fun acc c =>
      match acc, hexDigitVal c with
      | some n, some d => some (n * 16 + d)
      | _, _ => none)
    (some 0)

/-- `_hex_to_int` (simplify.py:35-39): `int(addr, 16)` on the `0x`-prefixed
hex addresses this program produces, `0` on any failure. -/
def hexToInt (s : String) : Nat :=
  let cs :=
    match s.data with
    | '0' :: 'x' :: rest => rest
    | '0' :: 'X' :: rest => rest
    | cs => cs
  if cs.isEmpty then 0
  else
    match parseHex cs with
    | some n => n
    | none => 0

/-- The `addrs` set of `_init_scopeinfo_graph` (simplify.py:59-67), modelled
as an insertion-ordered duplicate-free list: for each function add its
`scope_info_addr` and then its `outer_scope_info_addr` when present. -/
def collectAddrs (funcs : List (Option String × Option String)) : List String :=
  funcs.foldl
    (fun acc f =>
      let acc :=
        match f.1 with
        | some si => if si ∈ acc then acc else acc ++ [si]
        | none => acc
      match f.2 with
      | some oi => if oi ∈ acc then acc else acc ++ [oi]
      | none => acc)
    []

/-- `enumerate(sorted_addrs, start=n)` (simplify.py:71-72). -/
def enumFrom (n : Nat) : List String → List (String × Nat)
  | [] => []
  | a :: as => (a, n) :: enumFrom (n + 1) as

/-- `SCOPE_CTXID` after `_init_scopeinfo_graph`: every collected address,
sorted ascending by numeric value, gets ids `1..N` in order. -/
def initScopeCtxId (funcs : List (Option String × Option String)) : List (String × Nat) :=
  enumFrom 1 (sortByKey hexToInt (collectAddrs funcs))

/-- `SCOPE_CTXID.get(addr)`. -/
def ctxLookup (m : List (String × Nat)) (a : String) : Option Nat :=
  (m.find? (fun p => p.1 = a)).map (fun p => p.2)

/-- `_ctx_for_scopeinfo` (simplify.py:77-86): return the stable id; a missing
address is appended with a fresh id `max(values)+1` (or `1` when empty),
never touching existing entries. -/
def ctxForScopeinfo (m : List (String × Nat)) (a : String) : List (String × Nat) × Nat :=
  match ctxLookup m a with
  | some i => (m, i)
  | none =>
    let newId := (m.map (fun p => p.2)).foldl Nat.max 0 + 1
    (m ++ [(a, newId)], newId)

/-- The `_SCOPEINFO_INIT` guard (simplify.py:48-50): a second call in the
same run returns immediately and changes nothing. -/
def initScopeGraphGuarded (flag : Bool) (m : List (String × Nat))
    (funcs : List (Option String × Option String)) : Bool × List (String × Nat) :=
  if flag then (flag, m) else (true, initScopeCtxId funcs)

theorem enumFrom_lookup_bounds (l : List String) (n : Nat) (a : String) (i : Nat)
    (h : ctxLookup (enumFrom n l) a = some i) :
    n ≤ i ∧ i < n + l.length ∧ a ∈ l := by
  induction l generalizing n with
  | nil => cases h
  | cons x xs ih =>
    unfold ctxLookup at h
    rw [enumFrom, List.find?_cons] at h
    split at h
    · rename_i hx
      simp only [decide_eq_true_eq] at hx
      simp only [Option.map_some', Option.some.injEq] at h
      refine ⟨by omega, by simp only [List.length_cons]; omega, ?_⟩
      rw [← hx]
      exact List.mem_cons_self _ _
    · have hb := ih (n + 1) h
      exact ⟨by omega, by simp only [List.length_cons]; omega,
        List.mem_cons_of_mem x hb.2.2⟩

theorem enumFrom_lookup_head (l : List String) (n : Nat) (a : String) :
    ctxLookup (enumFrom n (a :: l)) a = some n := by
  unfold ctxLookup
  rw [enumFrom, List.find?_cons_of_pos _ (by simp)]
  rfl

theorem enumFrom_lookup_lt (l : List String)
    (hl : l.Pairwise (fun p q => hexToInt p < hexToInt q)) (n : Nat)
    (a b : String) (ia ib : Nat)
    (ha : ctxLookup (enumFrom n l) a = some ia)
    (hb : ctxLookup (enumFrom n l) b = some ib)
    (hab : hexToInt a < hexToInt b) : ia < ib := by
  induction l generalizing n with
  | nil => cases ha
  | cons x xs ih =>
    rcases List.pairwise_cons.mp hl with ⟨hx, hxs⟩
    unfold ctxLookup at ha hb
    rw [enumFrom, List.find?_cons] at ha hb
    split at ha
    · rename_i hxa
      simp only [decide_eq_true_eq] at hxa
      simp only [Option.map_some', Option.some.injEq] at ha
      split at hb
      · rename_i hxb
        simp only [decide_eq_true_eq] at hxb
        rw [← hxa, hxb] at hab
        exact absurd hab (Nat.lt_irrefl _)
      · have hbb := enumFrom_lookup_bounds xs (n + 1) b ib hb
        omega
    · split at hb
      · rename_i hxb
        simp only [decide_eq_true_eq] at hxb
        have hmem := (enumFrom_lookup_bounds xs (n + 1) a ia ha).2.2
        have hlt2 := hx a hmem
        rw [← hxb] at hab
        omega
      · exact ih hxs (n + 1) ha hb

theorem enumFrom_values (l : List String) (n : Nat) :
    (enumFrom n l).map (fun p => p.2) = List.range' n l.length := by
  induction l generalizing n with
  | nil => rfl
  | cons x xs ih =>
    rw [enumFrom, List.map_cons, ih, List.length_cons, List.range'_succ]

theorem ctxLookup_append_of_some (m : List (String × Nat)) (x : String × Nat)
    (a : String) (i : Nat) (h : ctxLookup m a = some i) :
    ctxLookup (m ++ [x]) a = some i := by
  unfold ctxLookup at h ⊢
  cases hf : List.find? (fun p => decide (p.1 = a)) m with
  | none => rw [hf] at h; cases h
  | some q =>
    rw [hf] at h
    rw [List.find?_append, hf]
    exact h

/-- The sorted address list of `_init_scopeinfo_graph` has strictly
increasing numeric keys as soon as no two collected addresses share a
numeric value. -/
theorem sorted_addrs_pairwise_lt (addrs : List String)
    (hinj : addrs.Pairwise (fun p q => hexToInt p ≠ hexToInt q)) :
    (sortByKey hexToInt addrs).Pairwise (fun p q => hexToInt p < hexToInt q) := by
  have hle := sortByKey_pairwise hexToInt addrs
  have hne : (sortByKey hexToInt addrs).Pairwise (fun p q => hexToInt p ≠ hexToInt q) :=
    ((sortByKey_perm hexToInt addrs).pairwise_iff
      (fun h => Ne.symm h)).mpr hinj
  exact (hle.and hne).imp (fun h => Nat.lt_of_le_of_ne h.1 h.2)

/-- C5: after the scope graph is initialised over the whole corpus
(addresses with pairwise-distinct numeric values), ids are ordered by
ascending numeric address value and are exactly `1..N`; the assignment
depends only on the set of collected addresses, not on discovery order;
and neither `_ctx_for_scopeinfo` nor a second (guarded) initialisation
changes an id once assigned. -/
theorem scope_id_assignment (funcs funcs' : List (Option String × Option String))
    (hinj : (collectAddrs funcs).Pairwise (fun p q => hexToInt p ≠ hexToInt q))
    (hperm : List.Perm (collectAddrs funcs) (collectAddrs funcs')) :
    (∀ a b ia ib, ctxLookup (initScopeCtxId funcs) a = some ia →
        ctxLookup (initScopeCtxId funcs) b = some ib →
        hexToInt a < hexToInt b → ia < ib)
    ∧ (initScopeCtxId funcs).map (fun p => p.2)
        = List.range' 1 (collectAddrs funcs).length
    ∧ initScopeCtxId funcs = initScopeCtxId funcs'
    ∧ (∀ (m : List (String × Nat)) (a : String) (i : Nat) (a' : String),
        ctxLookup m a = some i → ctxLookup (ctxForScopeinfo m a').1 a = some i)
    ∧ (∀ (m : List (String × Nat)),
        initScopeGraphGuarded true m funcs = (true, m)) := by
  refine ⟨?_, ?_, ?_, ?_, fun m => rfl⟩
  · intro a b ia ib ha hb hab
    exact enumFrom_lookup_lt _ (sorted_addrs_pairwise_lt _ hinj) 1 a b ia ib ha hb hab
  · rw [initScopeCtxId, enumFrom_values,
      (sortByKey_perm hexToInt (collectAddrs funcs)).length_eq]
  · unfold initScopeCtxId
    congr 1
    have hinj' : (collectAddrs funcs').Pairwise (fun p q => hexToInt p ≠ hexToInt q) :=
      (hperm.pairwise_iff (fun h => Ne.symm h)).mp hinj
    have hs : List.Perm (sortByKey hexToInt (collectAddrs funcs))
        (sortByKey hexToInt (collectAddrs funcs')) :=
      ((sortByKey_perm hexToInt _).trans hperm).trans (sortByKey_perm hexToInt _).symm
    haveI : IsAntisymm String (fun p q => hexToInt p < hexToInt q) :=
      ⟨fun a b h1 h2 => absurd h2 (Nat.lt_asymm h1)⟩
    exact List.eq_of_perm_of_sorted hs
      (sorted_addrs_pairwise_lt _ hinj) (sorted_addrs_pairwise_lt _ hinj')
  · intro m a i a' h
    unfold ctxForScopeinfo
    cases hl : ctxLookup m a' with
    | some j => exact h
    | none => exact ctxLookup_append_of_some m _ a i h

theorem scope_id_assignment_witness :
    ctxLookup (initScopeCtxId [(some "0x20", none), (some "0x10", some "0x20")]) "0x10"
        = some 1
    ∧ ctxLookup (initScopeCtxId [(some "0x20", none), (some "0x10", some "0x20")]) "0x20"
        = some 2
    ∧ (initScopeCtxId [(some "0x20", none), (some "0x10", some "0x20")]).map
        (fun p => p.2) = [1, 2]
    ∧ initScopeCtxId [(some "0x20", none), (some "0x10", some "0x20")]
        = initScopeCtxId [(some "0x10", some "0x20"), (some "0x20", none)] := by
  have h := scope_id_assignment [(some "0x20", none), (some "0x10", some "0x20")]
    [(some "0x10", some "0x20"), (some "0x20", none)] (by decide) (by decide)
  refine ⟨by decide, by decide, h.2.1.trans (by decide), h.2.2.1⟩

/-! ## SharedFunctionInfo block parsing
(`parse_shared_function_info` / `parse_file`, sfi_file_parser.py:481-605)

A function block is a list of classified lines.  Handlers that can raise
(`int(parse(...))` on a malformed `Parameter count` / `Register count`
line, a malformed handler-table row) are modelled with an `Option` payload
whose `none` raises.  The `try/except` of the Python function is the
`Except` result of the line loop, which carries the partial record and
registry present at the moment of the raise (the mutable `sfi` and the
global `all_functions`). -/

/-- A final function record as stored in `all_functions`
(`SharedFunctionInfo` after the normalisation at sfi_file_parser.py:546-565
or 574-583). -/
structure SFIRec where
  name : String
  declarer : Option String
  argument_count : Nat
  register_count : Nat
  const_pool : List String
  exception_table : List (Nat × Nat × Nat)
  code : List PCodeLine
  scope_info_addr : Option String
  outer_scope_info_addr : Option String
deriving DecidableEq, Repr

/-- The mutable `sfi` object while its block is being consumed. -/
structure SfiPartial where
  name : String
  baseName : String
  declarer : Option String
  argument_count : Option Nat
  register_count : Option Nat
  const_pool : Option (List String)
  exception_table : Option (List (Nat × Nat × Nat))
  code : Option (List PCodeLine)
  scope_info_addr : Option String
  outer_scope_info_addr : Option String
deriving DecidableEq, Repr

/-- `sfi = SharedFunctionInfo(); sfi.declarer = declarer; sfi.name = 'func_unknown'`
(sfi_file_parser.py:482-487); `baseName` is the `name` parameter. -/
def initSfi (name : String) (declarer : Option String) : SfiPartial :=
  ⟨"func_unknown", name, declarer, none, none, none, none, none, none, none⟩

/-- One classified line inside a `SharedFunctionInfo` block. -/
inductive SfiLine where
  /-- `End SharedFunctionInfo` (or the `None` sentinel): ends the loop. -/
  | endMarker
  /-- `- outer scope info: 0xADDR`. -/
  | outerScope (a : String)
  /-- `- scope info: 0xADDR`. -/
  | scopeInfo (a : String)
  /-- `Start SharedFunctionInfo`: recursive parse of the nested block. -/
  | startNested (sub : List SfiLine)
  /-- `Parameter count N`; `none` models a line where `parse(...)` fails
  and `int(None[0])` raises. -/
  | paramCount (n : Option Nat)
  /-- `Register count N`; `none` raises as for `paramCount`. -/
  | regCount (n : Option Nat)
  /-- `Constant pool (size = N)` plus its body. -/
  | constPool (size : Int) (body : List PoolLine)
  /-- `Handler Table`; `none` models a row whose parse raises. -/
  | handlerTable (et : Option (List (Nat × Nat × Nat)))
  /-- The bytecode block starting with `@    0 : `. -/
  | bytecode (cs : List PCodeLine)
  /-- An address line `... [SharedFunctionInfo] in ...`: renames the record. -/
  | addrLine (address : String)
  /-- any other line: ignored. -/
  | other
deriving Repr

/-- `all_functions`: a dict in insertion order, keys unique. -/
abbrev Registry := List (String × SFIRec)

/-- `all_functions[k] = v`: replace in place when the key exists, else
append (CPython dict semantics). -/
def regInsert : Registry → String → SFIRec → Registry
  | [], k, v => [(k, v)]
  | p :: ps, k, v => if p.1 = k then (k, v) :: ps else p :: regInsert ps k v

/-- `all_functions.get(k)`. -/
def regLookup (reg : Registry) (k : String) : Option SFIRec :=
  (reg.find? (fun p => p.1 = k)).map (fun p => p.2)

/-- The normalisation of the successful path (sfi_file_parser.py:546-565):
default every unresolved field, then fill bytecode offset gaps. -/
def finalizeOk (p : SfiPartial) : SFIRec :=
  { name := p.name, declarer := p.declarer,
    argument_count := p.argument_count.getD 0,
    register_count := p.register_count.getD 0,
    const_pool := p.const_pool.getD [],
    exception_table := p.exception_table.getD [],
    code := fillGaps (p.code.getD []),
    scope_info_addr := p.scope_info_addr,
    outer_scope_info_addr := p.outer_scope_info_addr }

/-- The normalisation of the `except` path (sfi_file_parser.py:574-583):
default every unresolved field; no gap fill. -/
def finalizeErr (p : SfiPartial) : SFIRec :=
  { name := p.name, declarer := p.declarer,
    argument_count := p.argument_count.getD 0,
    register_count := p.register_count.getD 0,
    const_pool := p.const_pool.getD [],
    exception_table := p.exception_table.getD [],
    code := p.code.getD [],
    scope_info_addr := p.scope_info_addr,
    outer_scope_info_addr := p.outer_scope_info_addr }

/-- `f'func_{(name or "unknown")}_{address}'` (sfi_file_parser.py:542). -/
def funcName (base : String) (address : String) : String :=
  "func_" ++ (if base = "" then "unknown" else base) ++ "_" ++ address

mutual

/-- `parse_shared_function_info` (sfi_file_parser.py:481-585): run the line
loop; whether it finishes or raises, normalise the partial record, store it
in the registry under its name, and return the name — the function itself
never raises. -/
def parseSFI (lines : List SfiLine) (name : String) (declarer : Option String)
    (reg : Registry) : Registry × String :=
  match runSfiLines lines (initSfi name declarer) reg with
  | .ok (reg', p) =>
    let r := finalizeOk p
    (regInsert reg' r.name r, r.name)
  | .error (reg', p) =>
    let r := finalizeErr p
    (regInsert reg' r.name r, r.name)

/-- The `while True` line loop (sfi_file_parser.py:489-543).  `error`
carries the registry and partial record at the moment a handler raises. -/
def runSfiLines (lines : List SfiLine) (p : SfiPartial) (reg : Registry) :
    Except (Registry × SfiPartial) (Registry × SfiPartial) :=
  match lines with
  | [] => .ok (reg, p)
  | ln :: rest =>
    match ln with
    | .endMarker => .ok (reg, p)
    | .outerScope a => runSfiLines rest { p with outer_scope_info_addr := some a } reg
    | .scopeInfo a => runSfiLines rest { p with scope_info_addr := some a } reg
    | .startNested sub =>
      let res := parseSFI sub ("nested_" ++ toString reg.length) (some p.name) reg
      runSfiLines rest p res.1
    | .paramCount none => .error (reg, p)
    | .paramCount (some n) => runSfiLines rest { p with argument_count := some n } reg
    | .regCount none => .error (reg, p)
    | .regCount (some n) => runSfiLines rest { p with register_count := some n } reg
    | .constPool size body =>
      runSfiLines rest { p with const_pool := some (parse_const_pool size body) } reg
    | .handlerTable none => .error (reg, p)
    | .handlerTable (some et) =>
      runSfiLines rest { p with exception_table := some et } reg
    | .bytecode cs => runSfiLines rest { p with code := some (parse_bytecode cs) } reg
    | .addrLine address =>
      runSfiLines rest { p with name := funcName p.baseName address } reg
    | .other => runSfiLines rest p reg

end

/-- `parse_file` (sfi_file_parser.py:592-605): parse every top-level
`Start SharedFunctionInfo` block in order, threading the (never reset)
registry. -/
def parse_file (blocks : List (List SfiLine)) (reg : Registry) : Registry :=
  blocks.foldl (fun r b => (parseSFI b "start" none r).1) reg

/-- Modelled from the spec: `export_to_file` and `SharedFunctionInfo.export`
(the latter lives in `Parser/shared_function_info.py`, absent from the
sources) emit "one structured pseudocode block per function" in registry
order; the output is abstracted to the ordered list of exported function
names. -/
def exportOutput (reg : Registry) : List String := reg.map (fun p => p.1)

/-- One full run of the view8 pipeline (`main`, view8.py:41-58) on an
already-classified input, starting from the given global registry state
(`all_functions` is module-level and `parse_file` never clears it). -/
def runPipeline (input : List (List SfiLine)) (reg : Registry) :
    List String × Registry :=
  let reg' := parse_file input reg
  (exportOutput reg', reg')

theorem regLookup_regInsert_self (reg : Registry) (k : String) (v : SFIRec) :
    regLookup (regInsert reg k v) k = some v := by
  induction reg with
  | nil => simp [regInsert, regLookup]
  | cons p ps ih =>
    rw [regInsert]
    split
    · simp [regLookup]
    · rename_i hp
      unfold regLookup
      rw [List.find?_cons_of_neg _ (by simpa using hp)]
      exact ih

/-- C3: an exception inside one function's block parse is caught at that
function's boundary: the partial record, with empty defaults for every
unresolved field, is still stored in the registry under its name, and
`parse_file` just continues with the next block. -/
theorem sfi_failure_isolated (lines : List SfiLine) (name : String)
    (declarer : Option String) (reg reg' : Registry) (p : SfiPartial)
    (herr : runSfiLines lines (initSfi name declarer) reg
      = .error (reg', p)) :
    (parseSFI lines name declarer reg).2 = p.name
    ∧ regLookup (parseSFI lines name declarer reg).1 p.name
        = some { name := p.name, declarer := p.declarer,
                 argument_count := p.argument_count.getD 0,
                 register_count := p.register_count.getD 0,
                 const_pool := p.const_pool.getD [],
                 exception_table := p.exception_table.getD [],
                 code := p.code.getD [],
                 scope_info_addr := p.scope_info_addr,
                 outer_scope_info_addr := p.outer_scope_info_addr }
    ∧ (∀ (b : List SfiLine) (bs : List (List SfiLine)) (r : Registry),
        parse_file (b :: bs) r = parse_file bs ((parseSFI b "start" none r).1)) := by
  have hps : parseSFI lines name declarer reg
      = (regInsert reg' (finalizeErr p).name (finalizeErr p), (finalizeErr p).name) := by
    unfold parseSFI
    rw [herr]
  refine ⟨by rw [hps]; rfl, ?_, fun b bs r => rfl⟩
  rw [hps]
  exact regLookup_regInsert_self reg' p.name (finalizeErr p)

theorem sfi_failure_isolated_witness :
    regLookup (parseSFI [SfiLine.addrLine "0xabc", SfiLine.paramCount none,
        SfiLine.regCount (some 5)] "start" none []).1 "func_start_0xabc"
      = some { name := "func_start_0xabc", declarer := none, argument_count := 0,
               register_count := 0, const_pool := [], exception_table := [], code := [],
               scope_info_addr := none, outer_scope_info_addr := none } := by
  have h := sfi_failure_isolated [SfiLine.addrLine "0xabc", SfiLine.paramCount none,
      SfiLine.regCount (some 5)] "start" none [] []
      { name := "func_start_0xabc", baseName := "start", declarer := none,
        argument_count := none, register_count := none, const_pool := none,
        exception_table := none, code := none, scope_info_addr := none,
        outer_scope_info_addr := none }
      (by simp [runSfiLines, initSfi, funcName])
  exact h.2.1

/-- `exceptReg`: the registry component of a loop result, whether the loop
finished or raised. -/
def exceptReg : Except (Registry × SfiPartial) (Registry × SfiPartial) → Registry
  | .ok (r, _) => r
  | .error (r, _) => r

theorem regInsert_keys_mono (reg : Registry) (k' : String) (v : SFIRec) (k : String)
    (hk : k ∈ reg.map (fun p => p.1)) :
    k ∈ (regInsert reg k' v).map (fun p => p.1) := by
  induction reg with
  | nil => cases hk
  | cons p ps ih =>
    rw [regInsert]
    simp only [List.map_cons, List.mem_cons] at hk
    split
    · rename_i hp
      rcases hk with rfl | hk
      · simp [hp]
      · simp only [List.map_cons, List.mem_cons]
        exact Or.inr hk
    · rcases hk with rfl | hk
      · simp
      · simp only [List.map_cons, List.mem_cons]
        exact Or.inr (ih hk)

mutual

theorem parseSFI_keys_mono (lines : List SfiLine) (name : String)
    (declarer : Option String) (reg : Registry) (k : String)
    (hk : k ∈ reg.map (fun p => p.1)) :
    k ∈ ((parseSFI lines name declarer reg).1).map (fun p => p.1) := by
  unfold parseSFI
  have hrun := runSfiLines_keys_mono lines (initSfi name declarer) reg k hk
  cases hcase : runSfiLines lines (initSfi name declarer) reg with
  | ok pr =>
    rw [hcase] at hrun
    exact regInsert_keys_mono pr.1 _ _ k hrun
  | error pr =>
    rw [hcase] at hrun
    exact regInsert_keys_mono pr.1 _ _ k hrun

theorem runSfiLines_keys_mono (lines : List SfiLine) (p : SfiPartial)
    (reg : Registry) (k : String) (hk : k ∈ reg.map (fun q => q.1)) :
    k ∈ (exceptReg (runSfiLines lines p reg)).map (fun q => q.1) := by
  match lines with
  | [] => rw [runSfiLines.eq_def]; exact hk
  | ln :: rest =>
    match ln with
    | .endMarker => rw [runSfiLines.eq_def]; exact hk
    | .outerScope a => rw [runSfiLines.eq_def]; exact runSfiLines_keys_mono rest _ reg k hk
    | .scopeInfo a => rw [runSfiLines.eq_def]; exact runSfiLines_keys_mono rest _ reg k hk
    | .startNested sub =>
      rw [runSfiLines.eq_def]
      exact runSfiLines_keys_mono rest p _ k
        (parseSFI_keys_mono sub ("nested_" ++ toString reg.length) (some p.name) reg k hk)
    | .paramCount none => rw [runSfiLines.eq_def]; exact hk
    | .paramCount (some n) => rw [runSfiLines.eq_def]; exact runSfiLines_keys_mono rest _ reg k hk
    | .regCount none => rw [runSfiLines.eq_def]; exact hk
    | .regCount (some n) => rw [runSfiLines.eq_def]; exact runSfiLines_keys_mono rest _ reg k hk
    | .constPool size body => rw [runSfiLines.eq_def]; exact runSfiLines_keys_mono rest _ reg k hk
    | .handlerTable none => rw [runSfiLines.eq_def]; exact hk
    | .handlerTable (some et) => rw [runSfiLines.eq_def]; exact runSfiLines_keys_mono rest _ reg k hk
    | .bytecode cs => rw [runSfiLines.eq_def]; exact runSfiLines_keys_mono rest _ reg k hk
    | .addrLine address => rw [runSfiLines.eq_def]; exact runSfiLines_keys_mono rest _ reg k hk
    | .other => rw [runSfiLines.eq_def]; exact runSfiLines_keys_mono rest p reg k hk

end

/-- C4, counterexample: running the pipeline twice in the same process on
one concrete input (a function with one nested function) yields different
outputs, because `parse_file` never clears `all_functions` and nested names
embed the registry size (`nested_{len(all_functions)}`). -/
theorem pipeline_rerun_differs :
    (runPipeline
        [[SfiLine.startNested [SfiLine.addrLine "0xa", SfiLine.endMarker],
          SfiLine.addrLine "0xb", SfiLine.endMarker]]
        ((runPipeline
          [[SfiLine.startNested [SfiLine.addrLine "0xa", SfiLine.endMarker],
            SfiLine.addrLine "0xb", SfiLine.endMarker]] []).2)).1
      ≠ (runPipeline
          [[SfiLine.startNested [SfiLine.addrLine "0xa", SfiLine.endMarker],
            SfiLine.addrLine "0xb", SfiLine.endMarker]] []).1 := by
  have h1 : (runPipeline
      [[SfiLine.startNested [SfiLine.addrLine "0xa", SfiLine.endMarker],
        SfiLine.addrLine "0xb", SfiLine.endMarker]] []).2
      = [("func_nested_0_0xa",
          { name := "func_nested_0_0xa", declarer := some "func_unknown",
            argument_count := 0, register_count := 0, const_pool := [],
            exception_table := [], code := [], scope_info_addr := none,
            outer_scope_info_addr := none }),
         ("func_start_0xb",
          { name := "func_start_0xb", declarer := none,
            argument_count := 0, register_count := 0, const_pool := [],
            exception_table := [], code := [], scope_info_addr := none,
            outer_scope_info_addr := none })] := by
    simp [runPipeline, parse_file, parseSFI, runSfiLines, finalizeOk, initSfi,
      funcName, regInsert, exportOutput, fillGaps, parse_bytecode, dedupByOffset,
      sortByKey]
    decide
  rw [h1]
  simp [runPipeline, parse_file, parseSFI, runSfiLines, finalizeOk, initSfi,
    funcName, regInsert, exportOutput, fillGaps, parse_bytecode, dedupByOffset,
    sortByKey]
  decide

/-- C4, amended: the pipeline is a pure function of the input and the global
state at the start of the run, but it is not independent of state left by a
previous run: `parse_file` only inserts into the function registry and never
resets it, so every registry key present before a run is still present
after it (and, by `pipeline_rerun_differs`, a second in-process run on an
input with a nested function produces different output). -/
theorem pipeline_registry_never_reset (input : List (List SfiLine)) (reg : Registry)
    (k : String) (hk : k ∈ reg.map (fun p => p.1)) :
    k ∈ ((runPipeline input reg).2).map (fun p => p.1) := by
  show k ∈ (parse_file input reg).map (fun p => p.1)
  induction input generalizing reg with
  | nil => exact hk
  | cons b bs ih =>
    exact ih _ (parseSFI_keys_mono b "start" none reg k hk)

theorem pipeline_registry_never_reset_witness :
    "func_old" ∈ ((runPipeline
        [[SfiLine.startNested [SfiLine.addrLine "0xa", SfiLine.endMarker],
          SfiLine.addrLine "0xb", SfiLine.endMarker]]
        [("func_old",
          { name := "func_old", declarer := none, argument_count := 0,
            register_count := 0, const_pool := [], exception_table := [],
            code := [], scope_info_addr := none,
            outer_scope_info_addr := none })]).2).map (fun p => p.1) := by
  refine pipeline_registry_never_reset _ _ "func_old" ?_
  simp

/-! ## The control-flow reconstructor (`JumpBlocks`, jump_blocks.py)

State model: `code` is the offset → translated-text dictionary (built from a
gap-filled code list, so its offsets are unique and listed in ascending
order — theorems carry that as a `Pairwise (· < ·)` hypothesis);
`edges` is the union of the per-type jump tables (`jump_table`), where an
edge is in its type's table iff its `done` flag is false — `jump_done`
always sets the flag and deletes the table entry together, so table lookups
are modelled as `find?` filtered on `done = false`; `catches` is the
separate `jump_table["Catch"]` dict that `handle_exception` inserts into
(those objects keep type `Jump` and are already done). -/

/-- A jump-edge type (the keys of `jump_table`, translate.py:44). -/
inductive EType where
  | Loop
  | Exception
  | Catch
  | IntSwitch
  | If
  | Jump
  | IfJSReceiver
deriving DecidableEq, Repr

/-- One `Jump` object (translate.py:6-11) plus its `done` flag. -/
structure Edge where
  ty : EType
  start : Nat
  endOff : Nat
  done : Bool
deriving DecidableEq, Repr

/-- The reconstructor state. -/
structure JBState where
  code : List (Nat × String)
  edges : List Edge
  catches : List Edge
deriving DecidableEq, Repr

/-- `bisect_left(offs, x)` on a sorted list: index of the first element
`≥ x` (the list length when there is none). -/
def bisectLeft (offs : List Nat) (x : Nat) : Nat :=
  offs.findIdx (fun o => x ≤ o)

/-- `snap_to_existing_offset` (jump_blocks.py:23-38). -/
def snapToExistingOffset (offs : List Nat) (off : Nat) : Option Nat :=
  if offs.isEmpty then none
  else
    let idx := bisectLeft offs off
    if idx = 0 then some (offs.getD 0 0)
    else if idx = offs.length then some (offs.getD (offs.length - 1) 0)
    else if offs.getD idx 0 = off then some off
    else some (offs.getD (idx - 1) 0)

/-- `get_relative_offset` (jump_blocks.py:52-68); the Python function raises
on an empty code list, which no modelled caller reaches — the model returns
`0` there. -/
def getRelativeOffset (offs : List Nat) (off : Nat) (n : Int) : Nat :=
  let idx := bisectLeft offs off
  let idx := if idx ≥ offs.length then offs.length - 1
             else if offs.getD idx 0 ≠ off ∧ 0 < idx then idx - 1 else idx
  let newIdx : Int := (idx : Int) + n
  let newIdx := if newIdx < 0 then 0
                else if (offs.length : Int) ≤ newIdx then (offs.length : Int) - 1
                else newIdx
  offs.getD newIdx.toNat 0

/-- The offsets of the code dictionary (`self.code_offset`). -/
def JBState.offsets (s : JBState) : List Nat := s.code.map (fun p => p.1)

/-- `get_line(off)` reduced to the snapped offset it resolves to. -/
def getLineOff (s : JBState) (off : Nat) : Option Nat :=
  snapToExistingOffset s.offsets off

/-- Text of the line stored at an exact offset. -/
def textAt (s : JBState) (off : Nat) : Option String :=
  (s.code.find? (fun p => p.1 = off)).map (fun p => p.2)

/-- Rewrite the text of the line at an exact offset. -/
def updateTextAt (s : JBState) (off : Nat) (f : String → String) : JBState :=
  { s with code := s.code.map (fun q => if q.1 = off then (q.1, f q.2) else q) }

/-- `line = self.get_line(off); if line: line.translated = t`. -/
def setLineText (s : JBState) (off : Nat) (t : String) : JBState :=
  match getLineOff s off with
  | some o => updateTextAt s o (fun _ => t)
  | none => s

/-- `jump_done` (jump_blocks.py:47-50): set the flag and delete the entry
from the edge's own type table (one combined operation in this model). -/
def jumpDone (s : JBState) (e : Edge) : JBState :=
  { s with edges := s.edges.map (fun x =>
      if x.ty = e.ty ∧ x.start = e.start then { x with done := true } else x) }

/-- `self.jump_table[t].get(k)`: the live (not-done) edge of type `t`
keyed at `k`. -/
def tableGet (s : JBState) (t : EType) (k : Nat) : Option Edge :=
  s.edges.find? (fun e => e.ty = t ∧ e.start = k ∧ e.done = false)

/-- `self.jump_table["Catch"][e.start] = e` (dict assignment keyed by
`start`). -/
def catchInsert : List Edge → Edge → List Edge
  | [], e => [e]
  | x :: xs, e => if x.start = e.start then e :: xs else x :: catchInsert xs e

/-- The per-edge preprocessing of `get_all_jump_list`
(jump_blocks.py:75-82): a zero-width edge is consumed; otherwise every
type except `Loop` and `IntSwitch` has its end shifted one instruction
backward. -/
def preprocessEdge (offs : List Nat) (e : Edge) : Edge :=
  if e.start = e.endOff then { e with done := true }
  else if e.ty ≠ EType.Loop ∧ e.ty ≠ EType.IntSwitch then
    { e with endOff := getRelativeOffset offs e.endOff (-1) }
  else e

/-- Stable insertion keyed by the lexicographic `(start, end)` pair
(`jump_list.sort(key=lambda x: (float(x.start), float(x.end)))`). -/
def insertByStartEnd (c : Edge) : List Edge → List Edge
  | [] => [c]
  | d :: ds =>
    if d.start < c.start ∨ (d.start = c.start ∧ d.endOff < c.endOff) then
      d :: insertByStartEnd c ds
    else c :: d :: ds

/-- Stable sort by `(start, end)`. -/
def sortByStartEnd : List Edge → List Edge
  | [] => []
  | c :: cs => insertByStartEnd c (sortByStartEnd cs)

/-- `get_all_jump_list` (jump_blocks.py:70-85): preprocess every edge in the
tables (the shared objects, so the tables see the updates too) and return
them sorted by `(start, end)`. -/
def getAllJumpList (s : JBState) : List Edge × JBState :=
  let edges' := s.edges.map (preprocessEdge s.offsets)
  (sortByStartEnd edges', { s with edges := edges' })

/-- `for table in self.jump_table.values(): if idx in table: self.jump_done(table[idx])`
(jump_blocks.py:491-494): consume every edge keyed at `idx`, whatever its
type. -/
def markJumpsAt (s : JBState) (idx : Nat) : JBState :=
  { s with edges := s.edges.map (fun x =>
      if x.start = idx then { x with done := true } else x) }

theorem getD_mem_of_lt (l : List Nat) (i : Nat) (h : i < l.length) : l.getD i 0 ∈ l := by
  rw [getD_eq_getElem?_getD, List.getElem?_eq_getElem h]
  exact List.getElem_mem h

theorem getRelativeOffset_mem (offs : List Nat) (off : Nat) (n : Int)
    (hne : offs ≠ []) : getRelativeOffset offs off n ∈ offs := by
  have hlen : 0 < offs.length := List.length_pos.mpr hne
  unfold getRelativeOffset
  refine getD_mem_of_lt offs _ ?_
  repeat' split
  all_goals omega

theorem getRelativeOffset_nil (off : Nat) (n : Int) : getRelativeOffset [] off n = 0 := by
  unfold getRelativeOffset
  simp

theorem filter_imp_length_le (p q : Nat → Bool) (h : ∀ a, p a = true → q a = true)
    (l : List Nat) : (l.filter p).length ≤ (l.filter q).length := by
  induction l with
  | nil => exact Nat.le_refl 0
  | cons a as ih =>
    by_cases hp : p a = true
    · rw [List.filter_cons_of_pos hp, List.filter_cons_of_pos (h a hp)]
      simpa using ih
    · rw [List.filter_cons_of_neg (by simpa using hp)]
      by_cases hq : q a = true
      · rw [List.filter_cons_of_pos hq]
        simp only [List.length_cons]
        omega
      · rw [List.filter_cons_of_neg (by simpa using hq)]
        exact ih

theorem filter_imp_length_lt (p q : Nat → Bool) (h : ∀ a, p a = true → q a = true)
    (l : List Nat) (x : Nat) (hx : x ∈ l) (hqx : q x = true) (hpx : p x = false) :
    (l.filter p).length < (l.filter q).length := by
  induction l with
  | nil => cases hx
  | cons a as ih =>
    rw [List.mem_cons] at hx
    rcases hx with rfl | hx
    · rw [List.filter_cons_of_neg (by simp [hpx]), List.filter_cons_of_pos hqx]
      have := filter_imp_length_le p q h as
      simp only [List.length_cons]
      omega
    · by_cases hp : p a = true
      · rw [List.filter_cons_of_pos hp, List.filter_cons_of_pos (h a hp)]
        simp only [List.length_cons]
        exact Nat.succ_lt_succ (ih hx)
      · rw [List.filter_cons_of_neg (by simpa using hp)]
        by_cases hq : q a = true
        · rw [List.filter_cons_of_pos hq]
          simp only [List.length_cons]
          have := ih hx
          omega
        · rw [List.filter_cons_of_neg (by simpa using hq)]
          exact ih hx

/-- The `while idx != end_target` walk of `remove_if_js_receiver`
(jump_blocks.py:482-494): blank the line at `idx`, advance to the next
existing offset, consume the jumps keyed there; stop at `end_target` or
when the walk cannot advance (`next_idx == idx`, i.e. at the last offset). -/
def blankLoop (offs : List Nat) (endT : Nat) (s : JBState) (idx : Nat) : JBState :=
  if idx = endT then s
  else
    let s1 := setLineText s idx ""
    let nxt := getRelativeOffset offs idx 1
    if _h : idx < nxt then blankLoop offs endT (markJumpsAt s1 nxt) nxt
    else s1
termination_by (offs.filter (fun o => idx < o)).length
decreasing_by
  have hlt : idx < getRelativeOffset offs idx 1 := _h
  by_cases hoff : offs = []
  · subst hoff
    rw [getRelativeOffset_nil] at hlt
    exact absurd hlt (Nat.not_lt_zero idx)
  · refine filter_imp_length_lt _ _ (fun a ha => ?_) offs
      (getRelativeOffset offs idx 1) (getRelativeOffset_mem offs idx 1 hoff)
      (by simp only [decide_eq_true_eq]; exact hlt)
      (by simp only [decide_eq_false_iff_not]; omega)
    simp only [decide_eq_true_eq] at ha ⊢
    omega

/-- One guard edge of `remove_if_js_receiver` (jump_blocks.py:470-499). -/
def removeIfJsReceiverStep (s : JBState) (jmp : Edge) : JBState :=
  match snapToExistingOffset s.offsets jmp.endOff with
  | none => jumpDone s jmp
  | some endTarget =>
    match snapToExistingOffset s.offsets jmp.start with
    | none => jumpDone s jmp
    | some idx0 =>
      let s1 := blankLoop s.offsets endTarget s idx0
      let s2 := setLineText s1 endTarget ""
      jumpDone s2 jmp

/-- `remove_if_js_receiver` (jump_blocks.py:469-501): process the snapshot
of the live `IfJSReceiver` table. -/
def removeIfJsReceiver (s : JBState) : JBState :=
  (s.edges.filter (fun e => e.ty = EType.IfJSReceiver ∧ e.done = false)).foldl
    removeIfJsReceiverStep s

/-- The catch-dispatch arm of `handle_exception` (jump_blocks.py:214-223):
append `} catch {` at the catch jump's start line and `}` at its end line,
move the jump into the `Catch` table, and consume both edges. -/
def handleExceptionCatch (s : JBState) (tryJmp catchJump : Edge) : JBState :=
  let s := match getLineOff s catchJump.start with
           | some o => updateTextAt s o (fun t => t ++ "\n\x7d\ncatch\n\x7b")
           | none => s
  let s := match getLineOff s catchJump.endOff with
           | some o => updateTextAt s o (fun t => t ++ "\n\x7d\n")
           | none => s
  let s := { s with catches := catchInsert s.catches { catchJump with done := true } }
  let s := jumpDone s catchJump
  jumpDone s tryJmp

/-- The no-catch arm of `handle_exception` (jump_blocks.py:224-227): close
the protected region with `} catch {}` at its (shifted) end line. -/
def handleExceptionNoCatch (s : JBState) (tryJmp : Edge) : JBState :=
  let s := match getLineOff s tryJmp.endOff with
           | some o => updateTextAt s o (fun t => t ++ "\n\x7d\ncatch \x7b\x7d\n")
           | none => s
  jumpDone s tryJmp

/-- `handle_exception` (jump_blocks.py:201-229). -/
def handle_exception (s : JBState) (tryJmp : Edge) : JBState :=
  if tryJmp.ty ≠ EType.Exception then s
  else
    match getLineOff s tryJmp.start with
    | none => jumpDone s tryJmp
    | some startOff =>
      let s := updateTextAt s startOff (fun t => "try\n\x7b\n" ++ t)
      match tableGet s EType.Jump tryJmp.endOff with
      | some catchJump => handleExceptionCatch s tryJmp catchJump
      | none => handleExceptionNoCatch s tryJmp

/-- CPython `str.replace(old, new)` on the character list, for a non-empty
pattern: replace left-to-right, non-overlapping.  (Every call modelled here
uses a non-empty literal pattern.) -/
def replaceChars (pat rep : List Char) : List Char → List Char
  | [] => []
  | c :: cs =>
    if pat ≠ [] ∧ pat.isPrefixOf (c :: cs) then
      rep ++ replaceChars pat rep (cs.drop (pat.length - 1))
    else c :: replaceChars pat rep cs
termination_by l => l.length
decreasing_by
  · simp only [List.length_cons]
    have := List.length_drop (pat.length - 1) cs
    omega
  · simp only [List.length_cons]
    omega

/-- `str.replace` lifted to `String`. -/
def pyReplace (s pat rep : String) : String :=
  ⟨replaceChars pat.data rep.data s.data⟩

/-- The `first_if.start == first_if.end` branch of `handle_if_statement`
(jump_blocks.py:416-421): append `{}` after each `)` of the condition's
text (`translated.replace(")", ") \x7b\x7d\n")`) and consume the edge.  The
dispatch reaches this branch exactly for `If` edges whose (shifted) start
and end coincide; the rest of `handle_if_statement` is outside the claims
modelled here. -/
def handleIfDegenerate (s : JBState) (firstIf : Edge) : JBState :=
  let s1 := match getLineOff s firstIf.start with
            | some o => updateTextAt s o (fun t => pyReplace t ")" ") \x7b\x7d\n")
            | none => s
  jumpDone s1 firstIf

/-- One iteration of the dispatch loop of `convert` (jump_blocks.py:528-531):
an edge whose `done` flag is already set is skipped, any other edge is given
to its type's handler. -/
def dispatchStep (handle : Edge → JBState → JBState) (s : JBState) (j : Edge) : JBState :=
  if j.done then s else handle j s

/-- The dispatch loop of `convert` over the sorted jump list. -/
def dispatchFold (handle : Edge → JBState → JBState) (jl : List Edge) (s : JBState) :
    JBState :=
  jl.foldl (dispatchStep handle) s

theorem findIdx_le_spec (offs : List Nat) (x : Nat)
    (hsort : offs.Pairwise (· < ·)) (hx : x ∈ offs) :
    bisectLeft offs x < offs.length ∧ offs.getD (bisectLeft offs x) 0 = x := by
  induction offs with
  | nil => cases hx
  | cons o os ih =>
    rcases List.pairwise_cons.mp hsort with ⟨ho, hos⟩
    rw [List.mem_cons] at hx
    have hcons : bisectLeft (o :: os) x = if x ≤ o then 0 else bisectLeft os x + 1 := by
      unfold bisectLeft
      rw [List.findIdx_cons]
      by_cases hxo : x ≤ o <;> simp [hxo]
    by_cases hxo : x ≤ o
    · have hox : o = x := by
        rcases hx with rfl | hx
        · rfl
        · have := ho x hx
          omega
      rw [hcons, if_pos hxo]
      exact ⟨by simp only [List.length_cons]; omega, by simp [hox]⟩
    · have hx' : x ∈ os := by
        rcases hx with rfl | hx
        · omega
        · exact hx
      obtain ⟨hlt, hget⟩ := ih hos hx'
      rw [hcons, if_neg hxo]
      refine ⟨by simp only [List.length_cons]; omega, ?_⟩
      simpa using hget

theorem snap_mem (offs : List Nat) (x : Nat)
    (hsort : offs.Pairwise (· < ·)) (hx : x ∈ offs) :
    snapToExistingOffset offs x = some x := by
  obtain ⟨hlt, hget⟩ := findIdx_le_spec offs x hsort hx
  unfold snapToExistingOffset
  rw [if_neg (by simp [List.isEmpty_iff]; rintro rfl; cases hx)]
  by_cases h0 : bisectLeft offs x = 0
  · rw [if_pos h0]
    rw [h0] at hget
    rw [hget]
  · rw [if_neg h0, if_neg (by omega), if_pos hget]

theorem offsets_updateTextAt (s : JBState) (off : Nat) (f : String → String) :
    (updateTextAt s off f).offsets = s.offsets := by
  unfold updateTextAt JBState.offsets
  simp only [List.map_map]
  refine List.map_congr_left (fun q _ => ?_)
  by_cases hq : q.1 = off <;> simp [hq]

theorem find?_fst_map (g : (Nat × String) → (Nat × String))
    (hg : ∀ q, (g q).1 = q.1) (k : Nat) (l : List (Nat × String)) :
    (l.map g).find? (fun p => p.1 = k) = (l.find? (fun p => p.1 = k)).map g := by
  induction l with
  | nil => rfl
  | cons q qs ih =>
    rw [List.map_cons, List.find?_cons, List.find?_cons, hg q]
    by_cases hq : q.1 = k
    · simp [hq]
    · simp [hq, ih]

theorem textAt_updateTextAt_self (s : JBState) (off : Nat) (f : String → String) :
    textAt (updateTextAt s off f) off = (textAt s off).map f := by
  unfold textAt updateTextAt
  rw [show (List.map (fun q => if q.1 = off then (q.1, f q.2) else q) s.code)
      = s.code.map (fun q => if q.1 = off then (q.1, f q.2) else q) from rfl]
  rw [find?_fst_map _ (fun q => by by_cases hq : q.1 = off <;> simp [hq]) off]
  cases hf : s.code.find? (fun p => p.1 = off) with
  | none => rfl
  | some q =>
    have hq : q.1 = off := by simpa using List.find?_some hf
    simp [hq]

theorem textAt_updateTextAt_ne (s : JBState) (off k : Nat) (f : String → String)
    (hk : k ≠ off) :
    textAt (updateTextAt s off f) k = textAt s k := by
  unfold textAt updateTextAt
  rw [show (List.map (fun q => if q.1 = off then (q.1, f q.2) else q) s.code)
      = s.code.map (fun q => if q.1 = off then (q.1, f q.2) else q) from rfl]
  rw [find?_fst_map _ (fun q => by by_cases hq : q.1 = off <;> simp [hq]) k]
  cases hf : s.code.find? (fun p => p.1 = k) with
  | none => rfl
  | some q =>
    have hq : q.1 = k := by simpa using List.find?_some hf
    have : ¬ q.1 = off := by rw [hq]; exact hk
    simp [this]

theorem tableGet_updateTextAt (s : JBState) (off : Nat) (f : String → String)
    (t : EType) (k : Nat) :
    tableGet (updateTextAt s off f) t k = tableGet s t k := rfl

theorem catches_updateTextAt (s : JBState) (off : Nat) (f : String → String) :
    (updateTextAt s off f).catches = s.catches := rfl

theorem tableGet_jumpDone_self (s : JBState) (e : Edge) :
    tableGet (jumpDone s e) e.ty e.start = none := by
  unfold tableGet jumpDone
  rw [List.find?_eq_none]
  intro x hx
  rcases List.mem_map.mp hx with ⟨y, _, rfl⟩
  by_cases hy : y.ty = e.ty ∧ y.start = e.start
  · simp [hy]
  · simp only [hy, if_false]
    simp only [not_and, Bool.not_eq_true, decide_eq_false_iff_not]
    intro h1 h2
    exact absurd ⟨h1, h2⟩ hy

theorem find?_map_invariant (p : Edge → Bool) (g : Edge → Edge)
    (hpres : ∀ y, p (g y) = p y) (hfix : ∀ y, p y = true → g y = y) (l : List Edge) :
    (l.map g).find? p = l.find? p := by
  induction l with
  | nil => rfl
  | cons y ys ih =>
    rw [List.map_cons, List.find?_cons, List.find?_cons, hpres y]
    by_cases hy : p y = true
    · simp only [hy, hfix y hy]
    · have hyf : p y = false := by simpa using hy
      simp only [hyf]
      exact ih

theorem tableGet_jumpDone_ne (s : JBState) (e : Edge) (t : EType) (k : Nat)
    (h : ¬(t = e.ty ∧ k = e.start)) :
    tableGet (jumpDone s e) t k = tableGet s t k := by
  unfold tableGet jumpDone
  refine find?_map_invariant _ _ (fun y => ?_) (fun y hy => ?_) s.edges
  · by_cases hy : y.ty = e.ty ∧ y.start = e.start
    · have hne : ¬(y.ty = t ∧ y.start = k) := by
        intro hc
        exact h ⟨hc.1.symm.trans hy.1, hc.2.symm.trans hy.2⟩
      rw [if_pos hy, decide_eq_decide]
      constructor
      · intro hc
        exact absurd ⟨hc.1, hc.2.1⟩ hne
      · intro hc
        exact absurd ⟨hc.1, hc.2.1⟩ hne
    · simp [hy]
  · simp only [decide_eq_true_eq] at hy
    have hnotm : ¬ (y.ty = e.ty ∧ y.start = e.start) := by
      intro hc
      exact h ⟨hy.1.symm.trans hc.1, hy.2.1.symm.trans hc.2⟩
    simp [hnotm]

theorem code_jumpDone (s : JBState) (e : Edge) : (jumpDone s e).code = s.code := rfl

theorem catches_jumpDone (s : JBState) (e : Edge) : (jumpDone s e).catches = s.catches := rfl

theorem catchInsert_mem (l : List Edge) (e : Edge) : e ∈ catchInsert l e := by
  induction l with
  | nil => exact List.mem_cons_self e []
  | cons x xs ih =>
    rw [catchInsert]
    split
    · exact List.mem_cons_self e xs
    · exact List.mem_cons_of_mem x ih

theorem tableGet_some_spec (s : JBState) (t : EType) (k : Nat) (e : Edge)
    (h : tableGet s t k = some e) :
    e.ty = t ∧ e.start = k ∧ e.done = false ∧ e ∈ s.edges := by
  unfold tableGet at h
  have hp := List.find?_some h
  have hm := List.mem_of_find?_eq_some h
  simp only [decide_eq_true_eq] at hp
  exact ⟨hp.1, hp.2.1, hp.2.2, hm⟩

theorem textAt_def (s : JBState) (k : Nat) :
    textAt s k = (s.code.find? (fun p => p.1 = k)).map (fun p => p.2) := rfl

theorem textAt_mk (co : List (Nat × String)) (ed ca : List Edge) (k : Nat) :
    textAt ⟨co, ed, ca⟩ k = (co.find? (fun p => p.1 = k)).map (fun p => p.2) := rfl

theorem textAt_jumpDone (s : JBState) (e : Edge) (k : Nat) :
    textAt (jumpDone s e) k = textAt s k := rfl

theorem handleExceptionCatch_spec (s : JBState) (tryJmp cj : Edge)
    (hsort : s.offsets.Pairwise (· < ·))
    (hcs : cj.start ∈ s.offsets) (hce : cj.endOff ∈ s.offsets)
    (hnece : cj.endOff ≠ cj.start) (hcjty : cj.ty = EType.Jump)
    (htyE : tryJmp.ty = EType.Exception) :
    textAt (handleExceptionCatch s tryJmp cj) cj.start
      = (textAt s cj.start).map (fun t => t ++ "\n\x7d\ncatch\n\x7b")
    ∧ textAt (handleExceptionCatch s tryJmp cj) cj.endOff
      = (textAt s cj.endOff).map (fun t => t ++ "\n\x7d\n")
    ∧ { cj with done := true } ∈ (handleExceptionCatch s tryJmp cj).catches
    ∧ tableGet (handleExceptionCatch s tryJmp cj) EType.Jump cj.start = none
    ∧ tableGet (handleExceptionCatch s tryJmp cj) EType.Exception tryJmp.start = none
    ∧ (∀ off, off ≠ cj.start → off ≠ cj.endOff →
        textAt (handleExceptionCatch s tryJmp cj) off = textAt s off) := by
  have h1 : getLineOff s cj.start = some cj.start := snap_mem _ _ hsort hcs
  have h2 : getLineOff (updateTextAt s cj.start (fun t => t ++ "\n\x7d\ncatch\n\x7b"))
      cj.endOff = some cj.endOff := by
    unfold getLineOff
    rw [offsets_updateTextAt]
    exact snap_mem _ _ hsort hce
  have hexp : handleExceptionCatch s tryJmp cj
      = jumpDone (jumpDone
          (JBState.mk
            (updateTextAt (updateTextAt s cj.start (fun t => t ++ "\n\x7d\ncatch\n\x7b"))
              cj.endOff (fun t => t ++ "\n\x7d\n")).code
            (updateTextAt (updateTextAt s cj.start (fun t => t ++ "\n\x7d\ncatch\n\x7b"))
              cj.endOff (fun t => t ++ "\n\x7d\n")).edges
            (catchInsert s.catches { cj with done := true })) cj) tryJmp := by
    unfold handleExceptionCatch
    simp only [h1, h2]
    rfl
  rw [hexp]
  refine ⟨?_, ?_, ?_, ?_, ?_, ?_⟩
  · rw [textAt_jumpDone, textAt_jumpDone, textAt_mk, ← textAt_def,
      textAt_updateTextAt_ne _ _ _ _ (fun h => hnece h.symm),
      textAt_updateTextAt_self]
  · rw [textAt_jumpDone, textAt_jumpDone, textAt_mk, ← textAt_def,
      textAt_updateTextAt_self,
      textAt_updateTextAt_ne _ _ _ _ hnece]
  · rw [catches_jumpDone, catches_jumpDone]
    exact catchInsert_mem _ _
  · rw [tableGet_jumpDone_ne _ tryJmp EType.Jump cj.start (by simp [htyE])]
    rw [← hcjty]
    exact tableGet_jumpDone_self _ cj
  · rw [← htyE]
    exact tableGet_jumpDone_self _ tryJmp
  · intro off hocs hoce
    rw [textAt_jumpDone, textAt_jumpDone, textAt_mk, ← textAt_def,
      textAt_updateTextAt_ne _ _ _ _ hoce, textAt_updateTextAt_ne _ _ _ _ hocs]

theorem handleExceptionNoCatch_spec (s : JBState) (tryJmp : Edge)
    (hsort : s.offsets.Pairwise (· < ·))
    (hmem : tryJmp.endOff ∈ s.offsets)
    (htyE : tryJmp.ty = EType.Exception) :
    textAt (handleExceptionNoCatch s tryJmp) tryJmp.endOff
      = (textAt s tryJmp.endOff).map (fun t => t ++ "\n\x7d\ncatch \x7b\x7d\n")
    ∧ tableGet (handleExceptionNoCatch s tryJmp) EType.Exception tryJmp.start = none
    ∧ (∀ off, off ≠ tryJmp.endOff →
        textAt (handleExceptionNoCatch s tryJmp) off = textAt s off) := by
  have h1 : getLineOff s tryJmp.endOff = some tryJmp.endOff := snap_mem _ _ hsort hmem
  have hexp : handleExceptionNoCatch s tryJmp
      = jumpDone (updateTextAt s tryJmp.endOff (fun t => t ++ "\n\x7d\ncatch \x7b\x7d\n")) tryJmp := by
    unfold handleExceptionNoCatch
    rw [h1]
  rw [hexp]
  refine ⟨?_, ?_, ?_⟩
  · rw [textAt_jumpDone, textAt_updateTextAt_self]
  · rw [← htyE]
    exact tableGet_jumpDone_self _ tryJmp
  · intro off hoff
    rw [textAt_jumpDone, textAt_updateTextAt_ne _ _ _ _ hoff]

/-- C7: for an `Exception` edge whose start resolves to an instruction, the
start line is prefixed with a try-opening brace; when a live unconditional
`Jump` edge begins exactly at the protected region's (shifted) end, it is
moved to the `Catch` table (consumed), `} catch {` text is appended at its
start line and `}` at its end line; otherwise the region is closed with
`} catch {}` at its end line.  All other lines keep their text. -/
theorem exception_edge_reconstruction (s : JBState) (tryJmp : Edge)
    (hsort : s.offsets.Pairwise (· < ·))
    (hty : tryJmp.ty = EType.Exception)
    (hstart : tryJmp.start ∈ s.offsets) :
    (∀ cj, tableGet s EType.Jump tryJmp.endOff = some cj →
      cj.start ∈ s.offsets → cj.endOff ∈ s.offsets →
      cj.start ≠ tryJmp.start → cj.endOff ≠ tryJmp.start → cj.endOff ≠ cj.start →
        textAt (handle_exception s tryJmp) tryJmp.start
          = (textAt s tryJmp.start).map (fun t => "try\n\x7b\n" ++ t)
        ∧ textAt (handle_exception s tryJmp) cj.start
          = (textAt s cj.start).map (fun t => t ++ "\n\x7d\ncatch\n\x7b")
        ∧ textAt (handle_exception s tryJmp) cj.endOff
          = (textAt s cj.endOff).map (fun t => t ++ "\n\x7d\n")
        ∧ { cj with done := true } ∈ (handle_exception s tryJmp).catches
        ∧ tableGet (handle_exception s tryJmp) EType.Jump cj.start = none
        ∧ tableGet (handle_exception s tryJmp) EType.Exception tryJmp.start = none
        ∧ (∀ off, off ≠ tryJmp.start → off ≠ cj.start → off ≠ cj.endOff →
            textAt (handle_exception s tryJmp) off = textAt s off))
    ∧ (tableGet s EType.Jump tryJmp.endOff = none →
        tryJmp.endOff ∈ s.offsets → tryJmp.endOff ≠ tryJmp.start →
        textAt (handle_exception s tryJmp) tryJmp.start
          = (textAt s tryJmp.start).map (fun t => "try\n\x7b\n" ++ t)
        ∧ textAt (handle_exception s tryJmp) tryJmp.endOff
          = (textAt s tryJmp.endOff).map (fun t => t ++ "\n\x7d\ncatch \x7b\x7d\n")
        ∧ tableGet (handle_exception s tryJmp) EType.Exception tryJmp.start = none
        ∧ (∀ off, off ≠ tryJmp.start → off ≠ tryJmp.endOff →
            textAt (handle_exception s tryJmp) off = textAt s off)) := by
  have hline : getLineOff s tryJmp.start = some tryJmp.start := snap_mem _ _ hsort hstart
  constructor
  · intro cj hcj hcs hce hne1 hne2 hne3
    have hexp : handle_exception s tryJmp
        = handleExceptionCatch
            (updateTextAt s tryJmp.start (fun t => "try\n\x7b\n" ++ t)) tryJmp cj := by
      unfold handle_exception
      rw [if_neg (by simp [hty])]
      simp only [hline]
      rw [show tableGet (updateTextAt s tryJmp.start (fun t => "try\n\x7b\n" ++ t))
          EType.Jump tryJmp.endOff = some cj from hcj]
    have hsort1 : (updateTextAt s tryJmp.start
        (fun t => "try\n\x7b\n" ++ t)).offsets.Pairwise (· < ·) := by
      rw [offsets_updateTextAt]
      exact hsort
    have hcs1 : cj.start ∈ (updateTextAt s tryJmp.start
        (fun t => "try\n\x7b\n" ++ t)).offsets := by
      rw [offsets_updateTextAt]
      exact hcs
    have hce1 : cj.endOff ∈ (updateTextAt s tryJmp.start
        (fun t => "try\n\x7b\n" ++ t)).offsets := by
      rw [offsets_updateTextAt]
      exact hce
    obtain ⟨c1, c2, c3, c4, c5, c6⟩ := handleExceptionCatch_spec
      (updateTextAt s tryJmp.start (fun t => "try\n\x7b\n" ++ t)) tryJmp cj
      hsort1 hcs1 hce1 hne3 (tableGet_some_spec _ _ _ _ hcj).1 hty
    rw [hexp]
    refine ⟨?_, ?_, ?_, c3, c4, c5, ?_⟩
    · rw [c6 tryJmp.start (fun h => hne1 h.symm) (fun h => hne2 h.symm),
        textAt_updateTextAt_self]
    · rw [c1, textAt_updateTextAt_ne _ _ _ _ hne1]
    · rw [c2, textAt_updateTextAt_ne _ _ _ _ hne2]
    · intro off hofft hoffcs hoffce
      rw [c6 off hoffcs hoffce, textAt_updateTextAt_ne _ _ _ _ hofft]
  · intro hnone hmemE hneE
    have hexp : handle_exception s tryJmp
        = handleExceptionNoCatch
            (updateTextAt s tryJmp.start (fun t => "try\n\x7b\n" ++ t)) tryJmp := by
      unfold handle_exception
      rw [if_neg (by simp [hty])]
      simp only [hline]
      rw [show tableGet (updateTextAt s tryJmp.start (fun t => "try\n\x7b\n" ++ t))
          EType.Jump tryJmp.endOff = none from hnone]
    have hsort1 : (updateTextAt s tryJmp.start
        (fun t => "try\n\x7b\n" ++ t)).offsets.Pairwise (· < ·) := by
      rw [offsets_updateTextAt]
      exact hsort
    have hmem1 : tryJmp.endOff ∈ (updateTextAt s tryJmp.start
        (fun t => "try\n\x7b\n" ++ t)).offsets := by
      rw [offsets_updateTextAt]
      exact hmemE
    obtain ⟨c1, c2, c3⟩ := handleExceptionNoCatch_spec
      (updateTextAt s tryJmp.start (fun t => "try\n\x7b\n" ++ t)) tryJmp hsort1 hmem1 hty
    rw [hexp]
    refine ⟨?_, ?_, c2, ?_⟩
    · rw [c3 tryJmp.start (fun h => hneE h.symm), textAt_updateTextAt_self]
    · rw [c1, textAt_updateTextAt_ne _ _ _ _ hneE]
    · intro off hofft hoffe
      rw [c3 off hoffe, textAt_updateTextAt_ne _ _ _ _ hofft]

theorem exception_edge_reconstruction_witness :
    textAt (handle_exception
        ⟨[(0, "a"), (1, "b"), (2, "c"), (3, "d")],
         [⟨EType.Exception, 0, 2, false⟩, ⟨EType.Jump, 2, 3, false⟩], []⟩
        ⟨EType.Exception, 0, 2, false⟩) 0 = some "try\n\x7b\na"
    ∧ textAt (handle_exception
        ⟨[(0, "a"), (1, "b"), (2, "c"), (3, "d")],
         [⟨EType.Exception, 0, 2, false⟩, ⟨EType.Jump, 2, 3, false⟩], []⟩
        ⟨EType.Exception, 0, 2, false⟩) 2 = some "c\n\x7d\ncatch\n\x7b"
    ∧ textAt (handle_exception
        ⟨[(0, "a"), (1, "b"), (2, "c"), (3, "d")],
         [⟨EType.Exception, 0, 2, false⟩, ⟨EType.Jump, 2, 3, false⟩], []⟩
        ⟨EType.Exception, 0, 2, false⟩) 3 = some "d\n\x7d\n" := by
  have h := (exception_edge_reconstruction
    ⟨[(0, "a"), (1, "b"), (2, "c"), (3, "d")],
     [⟨EType.Exception, 0, 2, false⟩, ⟨EType.Jump, 2, 3, false⟩], []⟩
    ⟨EType.Exception, 0, 2, false⟩ (by decide) rfl (by decide)).1
    ⟨EType.Jump, 2, 3, false⟩ (by decide) (by decide) (by decide)
    (by decide) (by decide) (by decide)
  refine ⟨h.1.trans (by decide), h.2.1.trans (by decide), h.2.2.1.trans (by decide)⟩

theorem replaceChars_single_not_mem (c : Char) (rep l : List Char) (h : c ∉ l) :
    replaceChars [c] rep l = l := by
  induction l with
  | nil => simp only [replaceChars]
  | cons x xs ih =>
    simp only [List.mem_cons, not_or] at h
    simp only [replaceChars]
    rw [if_neg (by
      intro hcontra
      have hpre := hcontra.2
      simp [List.isPrefixOf] at hpre
      exact h.1 hpre)]
    rw [ih h.2]

theorem replaceChars_single_split (c : Char) (rep a b : List Char)
    (ha : c ∉ a) (hb : c ∉ b) :
    replaceChars [c] rep (a ++ c :: b) = a ++ rep ++ b := by
  induction a with
  | nil =>
    simp only [List.nil_append]
    simp only [replaceChars]
    rw [if_pos ⟨by simp, by simp [List.isPrefixOf]⟩]
    simp only [List.length_cons, List.length_nil, Nat.zero_add, Nat.sub_self,
      List.drop_zero]
    rw [replaceChars_single_not_mem c rep b hb]
  | cons x a' ih =>
    simp only [List.mem_cons, not_or] at ha
    simp only [List.cons_append]
    simp only [replaceChars]
    rw [if_neg (by
      intro hcontra
      have hpre := hcontra.2
      simp [List.isPrefixOf] at hpre
      exact ha.1 hpre)]
    rw [ih ha.2]

/-- If the text has exactly one closing parenthesis, Python's
`text.replace(")", ") \x7b\x7d\n")` inserts the `{}` block right after it. -/
theorem pyReplace_single_paren (a b : String)
    (ha : (')' : Char) ∉ a.data) (hb : (')' : Char) ∉ b.data) :
    pyReplace (a ++ ")" ++ b) ")" ") \x7b\x7d\n" = a ++ ") \x7b\x7d\n" ++ b := by
  refine String.ext ?_
  unfold pyReplace
  show replaceChars ")".data (") \x7b\x7d\n").data (a ++ ")" ++ b).data
      = (a ++ ") \x7b\x7d\n" ++ b).data
  rw [String.data_append, String.data_append, String.data_append, String.data_append]
  rw [show (")" : String).data = [')'] from rfl]
  rw [List.append_assoc, List.singleton_append]
  rw [replaceChars_single_split ')' _ a.data b.data ha hb]

/-- C9: the degenerate branch of `handle_if_statement` reached for an `If`
edge whose (shifted) start and end coincide: the edge ends consumed and the
condition's line gets `{}` inserted after its closing parenthesis
(`replace` acts on each `)`; for a single-`)` text that is exactly one
insertion right after the condition). -/
theorem degenerate_if_empty_block (s : JBState) (firstIf : Edge)
    (hsort : s.offsets.Pairwise (· < ·))
    (hty : firstIf.ty = EType.If)
    (_hzw : firstIf.start = firstIf.endOff)
    (hstart : firstIf.start ∈ s.offsets) :
    textAt (handleIfDegenerate s firstIf) firstIf.start
      = (textAt s firstIf.start).map (fun t => pyReplace t ")" ") \x7b\x7d\n")
    ∧ tableGet (handleIfDegenerate s firstIf) EType.If firstIf.start = none
    ∧ (∀ off, off ≠ firstIf.start →
        textAt (handleIfDegenerate s firstIf) off = textAt s off)
    ∧ (∀ (a b : String), (')' : Char) ∉ a.data → (')' : Char) ∉ b.data →
        pyReplace (a ++ ")" ++ b) ")" ") \x7b\x7d\n" = a ++ ") \x7b\x7d\n" ++ b) := by
  have hline : getLineOff s firstIf.start = some firstIf.start :=
    snap_mem _ _ hsort hstart
  have hexp : handleIfDegenerate s firstIf
      = jumpDone (updateTextAt s firstIf.start
          (fun t => pyReplace t ")" ") \x7b\x7d\n")) firstIf := by
    unfold handleIfDegenerate
    rw [hline]
  rw [hexp]
  refine ⟨?_, ?_, ?_, pyReplace_single_paren⟩
  · rw [textAt_jumpDone, textAt_updateTextAt_self]
  · rw [← hty]
    exact tableGet_jumpDone_self _ firstIf
  · intro off hoff
    rw [textAt_jumpDone, textAt_updateTextAt_ne _ _ _ _ hoff]

theorem degenerate_if_empty_block_witness :
    textAt (handleIfDegenerate
        ⟨[(0, "if (x == 1)"), (1, "y")], [⟨EType.If, 0, 0, false⟩], []⟩
        ⟨EType.If, 0, 0, false⟩) 0 = some "if (x == 1) \x7b\x7d\n"
    ∧ tableGet (handleIfDegenerate
        ⟨[(0, "if (x == 1)"), (1, "y")], [⟨EType.If, 0, 0, false⟩], []⟩
        ⟨EType.If, 0, 0, false⟩) EType.If 0 = none := by
  have h := degenerate_if_empty_block
    ⟨[(0, "if (x == 1)"), (1, "y")], [⟨EType.If, 0, 0, false⟩], []⟩
    ⟨EType.If, 0, 0, false⟩ (by decide) rfl rfl (by decide)
  refine ⟨h.1.trans ?_, h.2.1⟩
  show Option.map (fun t => pyReplace t ")" ") \x7b\x7d\n") (some "if (x == 1)")
      = some "if (x == 1) \x7b\x7d\n"
  simp only [Option.map_some']
  congr 1
  unfold pyReplace
  simp +decide [replaceChars]

theorem insertByStartEnd_perm (c : Edge) (l : List Edge) :
    List.Perm (insertByStartEnd c l) (c :: l) := by
  induction l with
  | nil => simp [insertByStartEnd]
  | cons d ds ih =>
    simp only [insertByStartEnd]
    split
    · exact ((ih.cons d).trans (List.Perm.swap c d ds))
    · exact List.Perm.refl _

theorem sortByStartEnd_perm (l : List Edge) :
    List.Perm (sortByStartEnd l) l := by
  induction l with
  | nil => exact List.Perm.refl _
  | cons c cs ih =>
    exact (insertByStartEnd_perm c (sortByStartEnd cs)).trans (ih.cons c)

theorem find?_middle_false (p : Edge → Bool) (l1 l2 : List Edge) (x : Edge)
    (hx : p x = false) :
    (l1 ++ x :: l2).find? p = (l1 ++ l2).find? p := by
  rw [List.find?_append, List.find?_append, List.find?_cons_of_neg _ (by simp [hx])]

theorem dispatchFold_skip_done (handle : Edge → JBState → JBState)
    (l1 l2 : List Edge) (s0 : JBState) (d : Edge) (hd : d.done = true) :
    dispatchFold handle (l1 ++ d :: l2) s0 = dispatchFold handle (l1 ++ l2) s0 := by
  induction l1 generalizing s0 with
  | nil =>
    unfold dispatchFold
    rw [List.nil_append, List.nil_append, List.foldl_cons]
    unfold dispatchStep
    rw [hd]
    simp
  | cons j js ih =>
    unfold dispatchFold
    rw [List.cons_append, List.cons_append, List.foldl_cons, List.foldl_cons]
    exact ih _

/-- C6: a zero-width jump edge (`start == end`) is consumed by
`get_all_jump_list`'s preprocessing: line texts and the `Catch` table are
untouched, the edge appears in the dispatch list already done and its table
entry is gone — every subsequent table lookup behaves exactly as if the
edge had never been registered — and the dispatch loop never invokes a
handler on a done edge. -/
theorem zero_width_edges_noop (s : JBState) (es1 es2 : List Edge) (e : Edge)
    (hsplit : s.edges = es1 ++ e :: es2) (hzw : e.start = e.endOff) :
    ((getAllJumpList s).2).code = s.code
    ∧ ((getAllJumpList s).2).catches = s.catches
    ∧ { e with done := true } ∈ (getAllJumpList s).1
    ∧ (getAllJumpList s).2.edges
        = es1.map (preprocessEdge s.offsets) ++ { e with done := true }
          :: es2.map (preprocessEdge s.offsets)
    ∧ (∀ (t : EType) (k : Nat),
        tableGet (getAllJumpList s).2 t k
          = tableGet ⟨s.code, (es1 ++ es2).map (preprocessEdge s.offsets), s.catches⟩ t k)
    ∧ (∀ (handle : Edge → JBState → JBState) (l1 l2 : List Edge) (s0 : JBState)
        (d : Edge), d.done = true →
        dispatchFold handle (l1 ++ d :: l2) s0 = dispatchFold handle (l1 ++ l2) s0) := by
  have hpre : preprocessEdge s.offsets e = { e with done := true } := by
    unfold preprocessEdge
    rw [if_pos hzw]
  have hedges : (getAllJumpList s).2.edges
      = es1.map (preprocessEdge s.offsets) ++ { e with done := true }
        :: es2.map (preprocessEdge s.offsets) := by
    show s.edges.map (preprocessEdge s.offsets) = _
    rw [hsplit, List.map_append, List.map_cons, hpre]
  refine ⟨rfl, rfl, ?_, hedges, ?_, dispatchFold_skip_done⟩
  · show { e with done := true } ∈ sortByStartEnd (s.edges.map (preprocessEdge s.offsets))
    refine (sortByStartEnd_perm _).mem_iff.mpr ?_
    have : s.edges.map (preprocessEdge s.offsets)
        = es1.map (preprocessEdge s.offsets) ++ { e with done := true }
          :: es2.map (preprocessEdge s.offsets) := hedges
    rw [this]
    exact List.mem_append.mpr (Or.inr (List.mem_cons_self _ _))
  · intro t k
    show ((getAllJumpList s).2.edges).find? _ = _
    rw [hedges]
    unfold tableGet
    rw [List.map_append]
    exact find?_middle_false _ _ _ _ (by simp)

theorem zero_width_edges_noop_witness :
    { ty := EType.Jump, start := 5, endOff := 5, done := true }
      ∈ (getAllJumpList ⟨[(0, "a"), (5, "b")],
          [⟨EType.Jump, 5, 5, false⟩, ⟨EType.If, 0, 5, false⟩], []⟩).1
    ∧ ((getAllJumpList ⟨[(0, "a"), (5, "b")],
          [⟨EType.Jump, 5, 5, false⟩, ⟨EType.If, 0, 5, false⟩], []⟩).2).code
        = [(0, "a"), (5, "b")] := by
  have h := zero_width_edges_noop
    ⟨[(0, "a"), (5, "b")], [⟨EType.Jump, 5, 5, false⟩, ⟨EType.If, 0, 5, false⟩], []⟩
    [] [⟨EType.If, 0, 5, false⟩] ⟨EType.Jump, 5, 5, false⟩ rfl rfl
  exact ⟨h.2.2.1, h.1⟩

theorem offsets_markJumpsAt (s : JBState) (k : Nat) :
    (markJumpsAt s k).offsets = s.offsets := rfl

theorem code_markJumpsAt (s : JBState) (k : Nat) :
    (markJumpsAt s k).code = s.code := rfl

theorem catches_markJumpsAt (s : JBState) (k : Nat) :
    (markJumpsAt s k).catches = s.catches := rfl

theorem edges_markJumpsAt (s : JBState) (k : Nat) :
    (markJumpsAt s k).edges
      = s.edges.map (fun x => if x.start = k then { x with done := true } else x) := rfl

theorem catches_setLineText (s : JBState) (off : Nat) (t : String) :
    (setLineText s off t).catches = s.catches := by
  unfold setLineText
  cases getLineOff s off <;> rfl

theorem edges_setLineText (s : JBState) (off : Nat) (t : String) :
    (setLineText s off t).edges = s.edges := by
  unfold setLineText
  cases getLineOff s off <;> rfl

theorem getRel1_eq (offs : List Nat) (idx : Nat)
    (_h1 : bisectLeft offs idx < offs.length)
    (h2 : offs.getD (bisectLeft offs idx) 0 = idx)
    (h3 : bisectLeft offs idx + 1 < offs.length) :
    getRelativeOffset offs idx 1 = offs.getD (bisectLeft offs idx + 1) 0 := by
  unfold getRelativeOffset
  simp only []
  rw [if_neg (show ¬(bisectLeft offs idx ≥ offs.length) by omega)]
  rw [if_neg (show ¬(offs.getD (bisectLeft offs idx) 0 ≠ idx ∧ 0 < bisectLeft offs idx) by
    rw [h2]; simp)]
  rw [if_neg (show ¬(((bisectLeft offs idx : Int) + 1) < 0) by omega)]
  rw [if_neg (show ¬((offs.length : Int) ≤ (bisectLeft offs idx : Int) + 1) by
    omega)]
  congr 1

/-- On a sorted offset list containing `idx` and a strictly larger member
`endT`, `get_relative_offset(idx, 1)` is the immediate successor offset:
strictly above `idx`, at most `endT`, itself an offset, and minimal among
offsets above `idx`. -/
theorem next_offset_spec (offs : List Nat) (idx endT : Nat)
    (hsort : offs.Pairwise (· < ·)) (hidx : idx ∈ offs) (hend : endT ∈ offs)
    (hlt : idx < endT) :
    idx < getRelativeOffset offs idx 1
    ∧ getRelativeOffset offs idx 1 ≤ endT
    ∧ getRelativeOffset offs idx 1 ∈ offs
    ∧ (∀ o ∈ offs, idx < o → getRelativeOffset offs idx 1 ≤ o) := by
  obtain ⟨hilen, hget⟩ := findIdx_le_spec offs idx hsort hidx
  have hP := List.pairwise_iff_getElem.mp hsort
  have hPD : ∀ i j, i < offs.length → j < offs.length → i < j →
      offs.getD i 0 < offs.getD j 0 := by
    intro i j hi hj hij
    rw [getD_eq_getElem?_getD, getD_eq_getElem?_getD, List.getElem?_eq_getElem hi,
      List.getElem?_eq_getElem hj]
    simpa using hP i j hi hj hij
  have hmemD : ∀ x, x ∈ offs → ∃ k, k < offs.length ∧ offs.getD k 0 = x := by
    intro x hx
    obtain ⟨k, hk, hke⟩ := List.mem_iff_getElem.mp hx
    refine ⟨k, hk, ?_⟩
    rw [getD_eq_getElem?_getD, List.getElem?_eq_getElem hk]
    simpa using hke
  obtain ⟨j, hj, hje⟩ := hmemD endT hend
  have hij : bisectLeft offs idx < j := by
    by_contra hno
    push_neg at hno
    rcases Nat.lt_or_ge j (bisectLeft offs idx) with hc | hc
    · have hlt2 := hPD j (bisectLeft offs idx) hj hilen hc
      rw [hje, hget] at hlt2
      omega
    · have hj' : j = bisectLeft offs idx := by omega
      have hadx : endT = idx := by
        rw [← hje, hj']
        exact hget
      omega
  have hi1 : bisectLeft offs idx + 1 < offs.length := by omega
  have hnxt : getRelativeOffset offs idx 1 = offs.getD (bisectLeft offs idx + 1) 0 :=
    getRel1_eq offs idx hilen hget hi1
  have h1 : idx < getRelativeOffset offs idx 1 := by
    have hstep := hPD (bisectLeft offs idx) (bisectLeft offs idx + 1) hilen hi1
      (Nat.lt_succ_self _)
    rw [hget] at hstep
    rw [hnxt]
    exact hstep
  have h2 : getRelativeOffset offs idx 1 ≤ endT := by
    rw [hnxt]
    rcases Nat.lt_or_ge (bisectLeft offs idx + 1) j with hc | hc
    · have hlt2 := hPD _ _ hi1 hj hc
      rw [hje] at hlt2
      exact Nat.le_of_lt hlt2
    · have hej : bisectLeft offs idx + 1 = j := by omega
      rw [hej, hje]
  have h3 : getRelativeOffset offs idx 1 ∈ offs := by
    rw [hnxt]
    exact getD_mem_of_lt offs _ hi1
  refine ⟨h1, h2, h3, ?_⟩
  intro o ho hio
  obtain ⟨k, hk, hke⟩ := hmemD o ho
  have hik : bisectLeft offs idx < k := by
    by_contra hno
    push_neg at hno
    rcases Nat.lt_or_ge k (bisectLeft offs idx) with hc | hc
    · have hlt2 := hPD k (bisectLeft offs idx) hk hilen hc
      rw [hke, hget] at hlt2
      omega
    · have hk' : k = bisectLeft offs idx := by omega
      have hadx : o = idx := by
        rw [← hke, hk']
        exact hget
      omega
  rw [hnxt]
  rcases Nat.lt_or_ge (bisectLeft offs idx + 1) k with hc | hc
  · have hlt2 := hPD _ _ hi1 hk hc
    rw [hke] at hlt2
    exact Nat.le_of_lt hlt2
  · have hek : bisectLeft offs idx + 1 = k := by omega
    rw [hek, hke]

theorem blank_step_compose (idx nxt endT : Nat) (offs : List Nat)
    (l : List (Nat × String)) (hl : ∀ p ∈ l, p.1 ∈ offs)
    (h1 : idx < nxt) (h2 : idx < endT)
    (hmin : ∀ o ∈ offs, idx < o → nxt ≤ o) :
    (l.map (fun q => if q.1 = idx then (q.1, "") else q)).map
        (fun p => if nxt ≤ p.1 ∧ p.1 < endT then (p.1, "") else p)
      = l.map (fun p => if idx ≤ p.1 ∧ p.1 < endT then (p.1, "") else p) := by
  rw [List.map_map]
  refine List.map_congr_left (fun p hp => ?_)
  have hpo := hl p hp
  have hpmin : idx < p.1 → nxt ≤ p.1 := hmin p.1 hpo
  simp only [Function.comp_apply]
  by_cases hpe : p.1 = idx
  · rw [if_pos hpe]
    simp only []
    rw [if_neg (show ¬(nxt ≤ p.1 ∧ p.1 < endT) by omega),
      if_pos (show idx ≤ p.1 ∧ p.1 < endT by omega)]
  · rw [if_neg hpe]
    by_cases hc : idx ≤ p.1 ∧ p.1 < endT
    · rw [if_pos hc, if_pos (show nxt ≤ p.1 ∧ p.1 < endT by
        refine ⟨hpmin (by omega), hc.2⟩)]
    · rw [if_neg hc, if_neg (show ¬(nxt ≤ p.1 ∧ p.1 < endT) by
        intro hcc
        exact hc ⟨by omega, hcc.2⟩)]

theorem mark_step_compose (idx nxt endT : Nat) (offs : List Nat)
    (l : List Edge)
    (h1 : idx < nxt) (hnm : nxt ∈ offs) (hne : nxt ≤ endT)
    (hmin : ∀ o ∈ offs, idx < o → nxt ≤ o) :
    (l.map (fun x => if x.start = nxt then { x with done := true } else x)).map
        (fun e => if e.start ∈ offs ∧ nxt < e.start ∧ e.start ≤ endT
                  then { e with done := true } else e)
      = l.map (fun e => if e.start ∈ offs ∧ idx < e.start ∧ e.start ≤ endT
                        then { e with done := true } else e) := by
  rw [List.map_map]
  refine List.map_congr_left (fun x _ => ?_)
  have hxmin : x.start ∈ offs → idx < x.start → nxt ≤ x.start := hmin x.start
  simp only [Function.comp_apply]
  by_cases hxe : x.start = nxt
  · rw [if_pos hxe]
    simp only []
    rw [if_neg (show ¬(x.start ∈ offs ∧ nxt < x.start ∧ x.start ≤ endT) by
      intro hcc
      omega),
      if_pos (show x.start ∈ offs ∧ idx < x.start ∧ x.start ≤ endT by
        refine ⟨hxe ▸ hnm, by omega, by omega⟩)]
  · rw [if_neg hxe]
    by_cases hc : x.start ∈ offs ∧ idx < x.start ∧ x.start ≤ endT
    · rw [if_pos hc, if_pos (show x.start ∈ offs ∧ nxt < x.start ∧ x.start ≤ endT by
        have := hxmin hc.1 hc.2.1
        exact ⟨hc.1, by omega, hc.2.2⟩)]
    · rw [if_neg hc, if_neg (show ¬(x.start ∈ offs ∧ nxt < x.start ∧ x.start ≤ endT) by
        intro hcc
        exact hc ⟨hcc.1, by omega, hcc.2.2⟩)]

/-- The blanking walk of `remove_if_js_receiver` (jump_blocks.py:482-494),
characterised on a sorted offset list: starting from offset `idx` it blanks
the text of every line whose offset lies in `[idx, endT)` and marks done
every edge keyed at an offset of the code in `(idx, endT]`; catches are
untouched. -/
theorem blankLoop_spec (offs : List Nat) (endT : Nat)
    (hsort : offs.Pairwise (· < ·)) (hend : endT ∈ offs) :
    ∀ (n : Nat) (s : JBState) (idx : Nat), s.offsets = offs → idx ∈ offs →
      idx ≤ endT → endT - idx ≤ n →
      (blankLoop offs endT s idx).code
        = s.code.map (fun p => if idx ≤ p.1 ∧ p.1 < endT then (p.1, "") else p)
      ∧ (blankLoop offs endT s idx).edges
        = s.edges.map (fun e =>
            if e.start ∈ offs ∧ idx < e.start ∧ e.start ≤ endT
            then { e with done := true } else e)
      ∧ (blankLoop offs endT s idx).catches = s.catches := by
  intro n
  induction n with
  | zero =>
    intro s idx hoffs hidx hle hn
    have hq : idx = endT := by omega
    rw [blankLoop.eq_def, if_pos hq]
    subst hq
    refine ⟨?_, ?_, rfl⟩
    · rw [List.map_id'' (fun p => if_neg (by omega)) s.code]
    · rw [List.map_id'' (fun e => if_neg (by rintro ⟨-, hx1, hx2⟩; omega)) s.edges]
  | succ n ih =>
    intro s idx hoffs hidx hle hn
    by_cases hq : idx = endT
    · rw [blankLoop.eq_def, if_pos hq]
      subst hq
      refine ⟨?_, ?_, rfl⟩
      · rw [List.map_id'' (fun p => if_neg (by omega)) s.code]
      · rw [List.map_id'' (fun e => if_neg (by rintro ⟨-, hx1, hx2⟩; omega)) s.edges]
    · have hlt : idx < endT := by omega
      obtain ⟨hn1, hn2, hn3, hn4⟩ := next_offset_spec offs idx endT hsort hidx hend hlt
      rw [blankLoop.eq_def, if_neg hq]
      simp only []
      rw [dif_pos hn1]
      have hset : setLineText s idx "" = updateTextAt s idx (fun _ => "") := by
        unfold setLineText getLineOff
        rw [hoffs, snap_mem offs idx hsort hidx]
      have hoffs2 : (markJumpsAt (setLineText s idx "") (getRelativeOffset offs idx 1)).offsets
          = offs := by
        rw [offsets_markJumpsAt, hset, offsets_updateTextAt, hoffs]
      obtain ⟨ha, hb, hc⟩ := ih (markJumpsAt (setLineText s idx "")
        (getRelativeOffset offs idx 1)) (getRelativeOffset offs idx 1)
        hoffs2 hn3 hn2 (by omega)
      refine ⟨?_, ?_, ?_⟩
      · rw [ha, code_markJumpsAt, hset]
        show ((s.code.map (fun q => if q.1 = idx then (q.1, "") else q)).map
            (fun p => if getRelativeOffset offs idx 1 ≤ p.1 ∧ p.1 < endT
                      then (p.1, "") else p)) = _
        refine blank_step_compose idx (getRelativeOffset offs idx 1) endT offs s.code
          (fun p hp => ?_) hn1 hlt hn4
        rw [← hoffs]
        exact List.mem_map_of_mem (fun p => p.1) hp
      · rw [hb, edges_markJumpsAt, edges_setLineText]
        exact mark_step_compose idx (getRelativeOffset offs idx 1) endT offs s.edges
          hn1 hn3 hn2 hn4
      · rw [hc, catches_markJumpsAt, catches_setLineText]

theorem code_updateTextAt (s : JBState) (off : Nat) (f : String → String) :
    (updateTextAt s off f).code
      = s.code.map (fun q => if q.1 = off then (q.1, f q.2) else q) := rfl

theorem edges_jumpDone (s : JBState) (e : Edge) :
    (jumpDone s e).edges = s.edges.map (fun x =>
      if x.ty = e.ty ∧ x.start = e.start then { x with done := true } else x) := rfl

theorem blank_close_compose (idx0 endT : Nat) (l : List (Nat × String))
    (hle : idx0 ≤ endT) :
    (l.map (fun p => if idx0 ≤ p.1 ∧ p.1 < endT then (p.1, "") else p)).map
        (fun q => if q.1 = endT then (q.1, "") else q)
      = l.map (fun p => if idx0 ≤ p.1 ∧ p.1 ≤ endT then (p.1, "") else p) := by
  rw [List.map_map]
  refine List.map_congr_left (fun p _ => ?_)
  simp only [Function.comp_apply]
  by_cases hc : idx0 ≤ p.1 ∧ p.1 < endT
  · rw [if_pos hc]
    simp only []
    rw [if_neg (show ¬(p.1 = endT) by omega),
      if_pos (show idx0 ≤ p.1 ∧ p.1 ≤ endT by omega)]
  · rw [if_neg hc]
    by_cases he : p.1 = endT
    · rw [if_pos he, if_pos (show idx0 ≤ p.1 ∧ p.1 ≤ endT by omega)]
    · rw [if_neg he, if_neg (show ¬(idx0 ≤ p.1 ∧ p.1 ≤ endT) by
        intro hcc
        exact hc ⟨hcc.1, by omega⟩)]

theorem mark_close_compose (jstart jend : Nat) (jty : EType) (offs : List Nat)
    (l : List Edge) :
    (l.map (fun e => if e.start ∈ offs ∧ jstart < e.start ∧ e.start ≤ jend
                     then { e with done := true } else e)).map
        (fun x => if x.ty = jty ∧ x.start = jstart then { x with done := true } else x)
      = l.map (fun e =>
          if (e.ty = jty ∧ e.start = jstart)
             ∨ (e.start ∈ offs ∧ jstart < e.start ∧ e.start ≤ jend)
          then { e with done := true } else e) := by
  rw [List.map_map]
  refine List.map_congr_left (fun e _ => ?_)
  simp only [Function.comp_apply]
  by_cases hc : e.start ∈ offs ∧ jstart < e.start ∧ e.start ≤ jend
  · rw [if_pos hc]
    simp only []
    by_cases hd : e.ty = jty ∧ e.start = jstart
    · rw [if_pos hd, if_pos (Or.inl hd)]
    · rw [if_neg hd, if_pos (Or.inr hc)]
  · rw [if_neg hc]
    by_cases hd : e.ty = jty ∧ e.start = jstart
    · rw [if_pos hd, if_pos (Or.inl hd)]
    · rw [if_neg hd, if_neg (show ¬((e.ty = jty ∧ e.start = jstart)
          ∨ (e.start ∈ offs ∧ jstart < e.start ∧ e.start ≤ jend)) by
        rintro (h | h)
        · exact hd h
        · exact hc h)]

/-- C8 test: for an `IfJSReceiver` guard whose start and end are existing
code offsets, `remove_if_js_receiver` blanks the lines at every offset from
the guard's start up to and including its snapped end (both endpoints
included), marks done every edge keyed at a code offset strictly after the
start and up to the snapped end as well as the guard itself, and leaves the
`Catch` table alone; when the guard is the only live `IfJSReceiver` entry
the whole pass is exactly this step. -/
theorem if_js_receiver_removal (s : JBState) (jmp : Edge)
    (hsort : s.offsets.Pairwise (· < ·))
    (hty : jmp.ty = EType.IfJSReceiver)
    (hstart : jmp.start ∈ s.offsets) (hend : jmp.endOff ∈ s.offsets)
    (hle : jmp.start ≤ jmp.endOff) :
    (removeIfJsReceiverStep s jmp).code
      = s.code.map (fun p =>
          if jmp.start ≤ p.1 ∧ p.1 ≤ jmp.endOff then (p.1, "") else p)
    ∧ (removeIfJsReceiverStep s jmp).edges
      = s.edges.map (fun e =>
          if (e.ty = EType.IfJSReceiver ∧ e.start = jmp.start)
             ∨ (e.start ∈ s.offsets ∧ jmp.start < e.start ∧ e.start ≤ jmp.endOff)
          then { e with done := true } else e)
    ∧ tableGet (removeIfJsReceiverStep s jmp) EType.IfJSReceiver jmp.start = none
    ∧ (removeIfJsReceiverStep s jmp).catches = s.catches
    ∧ (s.edges.filter (fun e => e.ty = EType.IfJSReceiver ∧ e.done = false) = [jmp] →
        removeIfJsReceiver s = removeIfJsReceiverStep s jmp) := by
  have hsnapE : snapToExistingOffset s.offsets jmp.endOff = some jmp.endOff :=
    snap_mem _ _ hsort hend
  have hsnapS : snapToExistingOffset s.offsets jmp.start = some jmp.start :=
    snap_mem _ _ hsort hstart
  have hexp : removeIfJsReceiverStep s jmp
      = jumpDone (setLineText (blankLoop s.offsets jmp.endOff s jmp.start)
          jmp.endOff "") jmp := by
    unfold removeIfJsReceiverStep
    rw [hsnapE, hsnapS]
  obtain ⟨hbc, hbe, hbcat⟩ := blankLoop_spec s.offsets jmp.endOff hsort hend
    (jmp.endOff - jmp.start) s jmp.start rfl hstart hle (Nat.le_refl _)
  have hboff : (blankLoop s.offsets jmp.endOff s jmp.start).offsets = s.offsets := by
    show List.map (fun p => p.1) (blankLoop s.offsets jmp.endOff s jmp.start).code
        = List.map (fun p => p.1) s.code
    rw [hbc, List.map_map]
    refine List.map_congr_left (fun p _ => ?_)
    simp only [Function.comp_apply]
    by_cases hc : jmp.start ≤ p.1 ∧ p.1 < jmp.endOff
    · rw [if_pos hc]
    · rw [if_neg hc]
  have hset : setLineText (blankLoop s.offsets jmp.endOff s jmp.start) jmp.endOff ""
      = updateTextAt (blankLoop s.offsets jmp.endOff s jmp.start) jmp.endOff
          (fun _ => "") := by
    unfold setLineText getLineOff
    rw [hboff, hsnapE]
  refine ⟨?_, ?_, ?_, ?_, ?_⟩
  · rw [hexp, code_jumpDone, hset, code_updateTextAt, hbc]
    exact blank_close_compose jmp.start jmp.endOff s.code hle
  · rw [hexp, edges_jumpDone, edges_setLineText, hbe, hty]
    exact mark_close_compose jmp.start jmp.endOff EType.IfJSReceiver s.offsets s.edges
  · rw [hexp, ← hty]
    exact tableGet_jumpDone_self _ jmp
  · rw [hexp, catches_jumpDone, catches_setLineText, hbcat]
  · intro hf
    unfold removeIfJsReceiver
    rw [hf]
    rfl

/-- C8 counterexample to the spec wording: with code lines at offsets
`0,1,2` and a single `IfJSReceiver` guard from `0` to `2`, the removal pass
blanks the lines at the start offset `0` and at the snapped end offset `2`
as well — they do not keep their text. -/
theorem if_js_receiver_removal_cex :
    textAt (removeIfJsReceiver
        ⟨[(0, "a"), (1, "b"), (2, "c")], [⟨EType.IfJSReceiver, 0, 2, false⟩], []⟩) 0
      = some ""
    ∧ textAt (removeIfJsReceiver
        ⟨[(0, "a"), (1, "b"), (2, "c")], [⟨EType.IfJSReceiver, 0, 2, false⟩], []⟩) 2
      = some ""
    ∧ textAt (⟨[(0, "a"), (1, "b"), (2, "c")],
        [⟨EType.IfJSReceiver, 0, 2, false⟩], []⟩ : JBState) 0 = some "a"
    ∧ textAt (⟨[(0, "a"), (1, "b"), (2, "c")],
        [⟨EType.IfJSReceiver, 0, 2, false⟩], []⟩ : JBState) 2 = some "c" := by
  have hred : removeIfJsReceiver
      ⟨[(0, "a"), (1, "b"), (2, "c")], [⟨EType.IfJSReceiver, 0, 2, false⟩], []⟩
      = ⟨[(0, ""), (1, ""), (2, "")], [⟨EType.IfJSReceiver, 0, 2, true⟩], []⟩ := by
    simp +decide [removeIfJsReceiver, removeIfJsReceiverStep, blankLoop, setLineText,
      getLineOff, snapToExistingOffset, bisectLeft, getRelativeOffset, markJumpsAt,
      updateTextAt, jumpDone, JBState.offsets]
  refine ⟨?_, ?_, by decide, by decide⟩
  · rw [hred]
    decide
  · rw [hred]
    decide

theorem if_js_receiver_removal_witness :
    (removeIfJsReceiverStep
        ⟨[(0, "a"), (1, "b"), (2, "c")],
         [⟨EType.IfJSReceiver, 0, 2, false⟩, ⟨EType.Jump, 1, 2, false⟩], []⟩
        ⟨EType.IfJSReceiver, 0, 2, false⟩).code = [(0, ""), (1, ""), (2, "")]
    ∧ (removeIfJsReceiverStep
        ⟨[(0, "a"), (1, "b"), (2, "c")],
         [⟨EType.IfJSReceiver, 0, 2, false⟩, ⟨EType.Jump, 1, 2, false⟩], []⟩
        ⟨EType.IfJSReceiver, 0, 2, false⟩).edges
        = [⟨EType.IfJSReceiver, 0, 2, true⟩, ⟨EType.Jump, 1, 2, true⟩]
    ∧ tableGet (removeIfJsReceiverStep
        ⟨[(0, "a"), (1, "b"), (2, "c")],
         [⟨EType.IfJSReceiver, 0, 2, false⟩, ⟨EType.Jump, 1, 2, false⟩], []⟩
        ⟨EType.IfJSReceiver, 0, 2, false⟩) EType.IfJSReceiver 0 = none
    ∧ removeIfJsReceiver
        ⟨[(0, "a"), (1, "b"), (2, "c")],
         [⟨EType.IfJSReceiver, 0, 2, false⟩, ⟨EType.Jump, 1, 2, false⟩], []⟩
        = removeIfJsReceiverStep
            ⟨[(0, "a"), (1, "b"), (2, "c")],
             [⟨EType.IfJSReceiver, 0, 2, false⟩, ⟨EType.Jump, 1, 2, false⟩], []⟩
            ⟨EType.IfJSReceiver, 0, 2, false⟩ := by
  have h := if_js_receiver_removal
    ⟨[(0, "a"), (1, "b"), (2, "c")],
     [⟨EType.IfJSReceiver, 0, 2, false⟩, ⟨EType.Jump, 1, 2, false⟩], []⟩
    ⟨EType.IfJSReceiver, 0, 2, false⟩ (by decide) rfl (by decide) (by decide) (by decide)
  refine ⟨h.1.trans (by decide), h.2.1.trans (by decide), h.2.2.1, h.2.2.2.2 (by decide)⟩

end View8
